import Mathlib

/-!
# CineFusion — verification of the spec claims against the code

Shallow embedding of the computational core of the CineFusion backend:

* `AVL`    — `src/Backend/process/avl.py` (class `AVLTree`)
* `Trie`   — `src/Backend/process/trie.py` (class `Trie`)
* `RateL`  — `src/Backend/main.py` (class `SlidingWindowRateLimiter`)
* `Cache`  — `src/Backend/main.py` (class `AdvancedCache`)
* `Search` — `src/Backend/main.py` (`search_movies_in_df`)

Modelling conventions:

* Python strings are modelled as `List Char` wherever they are compared or
  traversed (Lean's `String` order does not reduce in the kernel; the list
  order is the same lexicographic code-point order Python uses).  `String`
  appears only at the outermost API boundary, converted via `String.data`.
* Python `time.time()` instants are modelled as integers (whole seconds);
  the claims under verification never depend on sub-second behaviour, and
  with integer instants Python's `int(...)` coercions are the identity.
* Python dicts are modelled as insertion-ordered association lists
  (`List (κ × ν)`): updating an existing key keeps its slot, a new key is
  appended at the end — exactly CPython's dict-order semantics.
* Fallible / "object identity" behaviour is modelled explicitly; see
  `AVL.deleteChanged` for the model of `self.root != old_root`.
-/

/-- Python `str.strip()` on the underlying character list. -/
def pyStrip (s : List Char) : List Char :=
  ((s.dropWhile Char.isWhitespace).reverse.dropWhile Char.isWhitespace).reverse

namespace AVL

/-- Node of the AVL tree (`class AVLNode`, avl.py:15-23): `key`, `left`,
`right` and a stored `height` field (initialised to 1 for a fresh node). -/
inductive Tree (α : Type) where
  | nil : Tree α
  | node (left : Tree α) (key : α) (right : Tree α) (height : ℕ) : Tree α
deriving DecidableEq, Repr

variable {α : Type}

/-- `AVLTree._height` (avl.py:47-51): `0` for `None`, else the *stored*
height field. -/
def hgt : Tree α → ℕ
  | .nil => 0
  | .node _ _ _ h => h

/-- `AVLTree._balance_factor` (avl.py:58-62): stored height of the left
child minus stored height of the right child (`0` for `None`). -/
def balance_factor : Tree α → ℤ
  | .nil => 0
  | .node l _ r _ => (hgt l : ℤ) - (hgt r : ℤ)

/-- `AVLTree._update_height` (avl.py:53-56) applied to a freshly built
node: the stored height becomes `max(height(left), height(right)) + 1`. -/
def upd (l : Tree α) (k : α) (r : Tree α) : Tree α :=
  .node l k r (max (hgt l) (hgt r) + 1)

/-- `AVLTree._rotate_left` (avl.py:64-76).  If `y.right` is `None` the code
returns `y` unchanged; otherwise it re-links and then updates the height of
`y` first and of the new root `x` second — which is exactly the nested
`upd`. -/
def rotate_left : Tree α → Tree α
  | .nil => .nil
  | .node l k .nil h => .node l k .nil h
  | .node l k (.node rl rk rr _) _ => upd (upd l k rl) rk rr

/-- `AVLTree._rotate_right` (avl.py:78-90), mirror image. -/
def rotate_right : Tree α → Tree α
  | .nil => .nil
  | .node .nil k r h => .node .nil k r h
  | .node (.node ll lk lr _) k r _ => upd ll lk (upd lr k r)

/-- `AVLTree._balance` (avl.py:92-112).  The code first rewrites
`node.height` (our `upd`), computes the balance factor from the *stored*
child heights, and rotates when `|balance| > 1`.  The Python guard
`node.left and balance_factor(node.left) < 0` is equivalent to
`balance_factor l < 0` because the factor of `None` is `0`.  The code does
not refresh `node.height` after replacing `node.left`/`node.right` with the
pre-rotated child, but the subsequent rotation discards the root height
anyway, which is what the `upd` inside `rotate_*` computes. -/
def balance : Tree α → Tree α
  | .nil => .nil
  | .node l k r _ =>
      if (hgt l : ℤ) - (hgt r : ℤ) > 1 then
        if balance_factor l < 0 then rotate_right (upd (rotate_left l) k r)
        else rotate_right (upd l k r)
      else if (hgt l : ℤ) - (hgt r : ℤ) < -1 then
        if balance_factor r > 0 then rotate_left (upd l k (rotate_right r))
        else rotate_left (upd l k r)
      else upd l k r

/-- `AVLTree._insert` (avl.py:146-159): the duplicate test comes first and
returns the node unchanged (no rebalance); otherwise recurse on the side
given by the raw `<` comparison and rebalance on the way out. -/
def insertAux [LinearOrder α] : Tree α → α → Tree α
  | .nil, key => .node .nil key .nil 1
  | .node l k r h, key =>
      if key = k then .node l k r h
      else if key < k then balance (.node (insertAux l key) k r h)
      else balance (.node l k (insertAux r key) h)

/-- `node.left is None` / `node.right is None` tests of `_delete`. -/
def isNil : Tree α → Bool
  | .nil => true
  | .node _ _ _ _ => false

/-- `AVLTree._find_min` (avl.py:161-166): iteratively follow `left`; the
default `d` is returned only for an empty tree (the Python code is never
called on one). -/
def findMinD : Tree α → α → α
  | .nil, d => d
  | .node l k _ _, _ => findMinD l k

/-- `AVLTree._delete` (avl.py:200-221).  A found node with at most one
child is replaced by that child *without* rebalancing (early `return`);
the two-child case splices in the in-order successor
(`_find_min(node.right)`) and rebalances. -/
def deleteAux [LinearOrder α] : Tree α → α → Tree α
  | .nil, _ => .nil
  | .node l k r h, key =>
      if key < k then balance (.node (deleteAux l key) k r h)
      else if k < key then balance (.node l k (deleteAux r key) h)
      else
        if isNil l then r
        else if isNil r then l
        else balance (.node l (findMinD r k) (deleteAux r (findMinD r k)) h)

/-- Whether `_balance` returns a *different Python object* than its
argument: exactly when one of the two rotation branches runs.  (When
`|balance| > 1` the heavy child is non-`None` — its stored height is at
least 2 — so the rotation's defensive `if x is None: return y` branch
cannot fire and the rotation returns the child object, never the argument
itself.) -/
def balanceRotates : Tree α → Bool
  | .nil => false
  | .node l _ r _ =>
      decide ((hgt l : ℤ) - (hgt r : ℤ) > 1 ∨ (hgt l : ℤ) - (hgt r : ℤ) < -1)

/-- Model of `self.root != old_root` in `AVLTree.delete` (avl.py:186-195).
`AVLNode` defines no `__eq__`, so `!=` is *object identity*.  `_delete`
mutates nodes in place and returns:
* the argument itself when the key misses the tree or when `_balance` does
  not rotate at the root (identity preserved → `False`),
* `node.right` / `node.left` (a different object, possibly `None`) when the
  root holds the key with at most one child (→ `True`),
* the rotation result (a former child object) when `_balance` rotates at
  the root (→ `True`). -/
def deleteChanged [LinearOrder α] : Tree α → α → Bool
  | .nil, _ => false
  | .node l k r h, key =>
      if key < k then balanceRotates (.node (deleteAux l key) k r h)
      else if k < key then balanceRotates (.node l k (deleteAux r key) h)
      else
        if isNil l then true
        else if isNil r then true
        else balanceRotates (.node l (findMinD r k) (deleteAux r (findMinD r k)) h)

/-- `AVLTree._search` (avl.py:237-247). -/
def searchAux [LinearOrder α] : Tree α → α → Bool
  | .nil, _ => false
  | .node l k r _, key =>
      if key = k then true
      else if key < k then searchAux l key
      else searchAux r key

/-- `AVLTree._inorder`/`inorder` (avl.py:249-265). -/
def inorder : Tree α → List α
  | .nil => []
  | .node l k r _ => inorder l ++ k :: inorder r

/-- `AVLTree.insert` (avl.py:114-144): reject empty / whitespace-only keys
with `False`; otherwise run `_insert` on the stripped key.  The
`self.root != old_root` test only gates the file save — the method returns
`True` on every validated call, duplicates included (exceptions cannot
occur in the pure fragment modelled here). -/
def insert (t : Tree (List Char)) (key : String) : Tree (List Char) × Bool :=
  if key = "" then (t, false)
  else if pyStrip key.data = [] then (t, false)
  else (insertAux t (pyStrip key.data), true)

/-- `AVLTree.delete` (avl.py:168-198): reject empty / whitespace-only keys
with `False`; otherwise run `_delete` and report `self.root != old_root`
(object identity — see `deleteChanged`). -/
def delete (t : Tree (List Char)) (key : String) : Tree (List Char) × Bool :=
  if key = "" then (t, false)
  else if pyStrip key.data = [] then (t, false)
  else (deleteAux t (pyStrip key.data), deleteChanged t (pyStrip key.data))

/-- `AVLTree.search` (avl.py:223-235). -/
def search (t : Tree (List Char)) (key : String) : Bool :=
  if key = "" then false else searchAux t (pyStrip key.data)

/-- Spec §3 TreeNode invariant, first clause: every stored `height` field
equals `1 + max(height(left), height(right))`. -/
def HeightsOk : Tree α → Prop
  | .nil => True
  | .node l _ r h => HeightsOk l ∧ HeightsOk r ∧ h = max (hgt l) (hgt r) + 1

/-- Spec §3 TreeNode invariant, second clause: every node's balance factor
lies in `{-1, 0, 1}`. -/
def BfOk : Tree α → Prop
  | .nil => True
  | .node l k r h =>
      balance_factor (.node l k r h) ∈ ({-1, 0, 1} : Set ℤ) ∧ BfOk l ∧ BfOk r

/-- Internal form of the two height clauses, stated with `Nat` bounds that
`omega` can chew on. -/
def Avl : Tree α → Prop
  | .nil => True
  | .node l _ r h =>
      Avl l ∧ Avl r ∧ h = max (hgt l) (hgt r) + 1 ∧
        hgt l ≤ hgt r + 1 ∧ hgt r ≤ hgt l + 1

/-- `p` holds at every key of the tree. -/
def FA (p : α → Prop) : Tree α → Prop
  | .nil => True
  | .node l k r _ => FA p l ∧ p k ∧ FA p r

/-- Binary-search-tree ordering on the raw keys. -/
def Ord [LinearOrder α] : Tree α → Prop
  | .nil => True
  | .node l k r _ => Ord l ∧ Ord r ∧ FA (· < k) l ∧ FA (k < ·) r

/-- One call against the `AVLTree` mutating API. -/
inductive Op where
  | ins (key : String)
  | del (key : String)

/-- Apply one API call to the tree, dropping the returned `bool`. -/
def applyOp (t : Tree (List Char)) : Op → Tree (List Char)
  | .ins s => (insert t s).1
  | .del s => (delete t s).1

/-- Run a sequence of API calls starting from the empty tree
(`AVLTree.__init__` sets `self.root = None`). -/
def runOps (ops : List Op) : Tree (List Char) :=
  ops.foldl applyOp .nil

end AVL

namespace Trie

/-- `class TrieNode` (trie.py:6-10): a children dict and the end-of-word
flag.  The dict is modelled as an insertion-ordered association list,
CPython's dict semantics (spec §4.2 makes the insertion-order traversal
part of the contract). -/
inductive Node where
  | mk (children : List (Char × Node)) (is_end_of_word : Bool)

def children : Node → List (Char × Node)
  | .mk ch _ => ch

def isEnd : Node → Bool
  | .mk _ e => e

/-- `char in node.children` / `node.children[char]` read. -/
def assocFind : List (Char × Node) → Char → Option Node
  | [], _ => none
  | (c, n) :: rest, d => if c = d then some n else assocFind rest d

/-- `node.children[char] = n` write: an existing key keeps its slot, a new
key is appended at the end. -/
def assocSet : List (Char × Node) → Char → Node → List (Char × Node)
  | [], d, n => [(d, n)]
  | (c, m) :: rest, d, n =>
      if c = d then (d, n) :: rest else (c, m) :: assocSet rest d n

/-- The character loop of `Trie.insert` (trie.py:27-32): descend along the
word, creating a fresh empty node where a character is missing, and mark
the final node as end-of-word. -/
def insertChars : Node → List Char → Node
  | .mk ch _, [] => .mk ch true
  | .mk ch e, c :: cs =>
      .mk (assocSet ch c
        (insertChars ((assocFind ch c).getD (.mk [] false)) cs)) e

/-- `Trie.insert` (trie.py:22-32): empty words are ignored, everything else
is lowercased (`word.lower()`, modelled as `Char.toLower` on each
character) and inserted. -/
def insert (t : Node) (word : String) : Node :=
  if word = "" then t
  else insertChars t (word.data.map Char.toLower)

/-- `Trie.formTrie` (trie.py:34-38): insert every non-empty key, stripped.
(The `isinstance` guard is vacuous here: all keys are strings.) -/
def formTrie (t : Node) (keys : List String) : Node :=
  keys.foldl (fun t k => if k = "" then t else insert t ⟨pyStrip k.data⟩) t

/-- `Trie.search` (trie.py:81-92): empty word is `False`; otherwise walk
the lowercased word and report the final node's end-of-word flag. -/
def searchChars : Node → List Char → Bool
  | .mk _ e, [] => e
  | .mk ch _, c :: cs =>
      match assocFind ch c with
      | none => false
      | some m => searchChars m cs

def search (t : Node) (word : String) : Bool :=
  if word = "" then false else searchChars t (word.data.map Char.toLower)

/-- The prefix-navigation loop of `printAutoSuggestions` (trie.py:66-70). -/
def walk : Node → List Char → Option Node
  | n, [] => some n
  | .mk ch _, c :: cs =>
      match assocFind ch c with
      | none => none
      | some m => walk m cs

mutual

/-- `Trie._suggestion_rec` (trie.py:40-50): depth-first collection into the
shared `suggestions_list` accumulator, hard-capped at 20 entries; an
end-of-word node contributes the accumulated word, then the children are
visited in dict (insertion) order, each visit guarded by the cap. -/
def suggRec : Node → List Char → List (List Char) → List (List Char)
  | .mk ch e, word, acc =>
      if 20 ≤ acc.length then acc
      else suggFold ch word (if e then acc ++ [word] else acc)

/-- The `for char, child_node in node.children.items()` loop of
`_suggestion_rec`. -/
def suggFold : List (Char × Node) → List Char → List (List Char) → List (List Char)
  | [], _, acc => acc
  | (c, m) :: rest, word, acc =>
      suggFold rest word
        (if acc.length < 20 then suggRec m (word ++ [c]) acc else acc)

end

/-- The three-way result of `printAutoSuggestions` (trie.py:52-79):
Python's `0` (prefix not found / nothing collected), `-1` (prefix node has
no children) and a non-empty list of suggestions. -/
inductive SuggestOutcome where
  | notFound
  | noCompletions
  | results (l : List (List Char))
deriving DecidableEq, Repr

/-- `Trie.printAutoSuggestions` (trie.py:52-79). -/
def printAutoSuggestions (t : Node) (pfx : String) : SuggestOutcome :=
  if pfx = "" then .notFound
  else
    match walk t (pfx.data.map Char.toLower) with
    | none => .notFound
    | some n =>
        if (children n).isEmpty then .noCompletions
        else
          if suggRec n (pfx.data.map Char.toLower) [] = [] then .notFound
          else .results (suggRec n (pfx.data.map Char.toLower) [])

/-- Every childless node reachable below this one is marked end-of-word
(true of every node ever produced by `insert`, except possibly a bare
root). -/
inductive Good : Node → Prop where
  | mk : ∀ {ch : List (Char × Node)} {e : Bool},
      (∀ p ∈ ch, Good p.2) → (ch = [] → e = true) → Good (.mk ch e)

/-- No character anywhere in the tree's edge labels is an ASCII capital
letter (true of every trie built through `insert`, which lowercases). -/
inductive LowEdges : Node → Prop where
  | mk : ∀ {ch : List (Char × Node)} {e : Bool},
      (∀ p ∈ ch, p.1.toNat < 65 ∨ 90 < p.1.toNat) →
      (∀ p ∈ ch, LowEdges p.2) →
      LowEdges (.mk ch e)

end Trie

namespace RateL

/-- State of `SlidingWindowRateLimiter` (main.py:166-174).  The per-client
dict is modelled as a total function: a missing key and an empty list are
observationally identical, since `is_allowed` materialises `[]` for unseen
clients and `_cleanup_old_entries` deletes exactly the clients whose list
would become `[]`. -/
structure Limiter where
  requests : ℕ
  window : ℤ
  clients : String → List ℤ
  cleanup_interval : ℤ
  last_cleanup : ℤ

/-- The rate-limit info dict returned by `is_allowed`. -/
structure RateInfo where
  allowed : Bool
  remaining : ℤ
  reset : ℤ
  limit : ℕ
deriving DecidableEq, Repr

/-- `SlidingWindowRateLimiter(requests, window_seconds)` built at time
`now` (`self.last_cleanup = time.time()`, `self.cleanup_interval = 60`). -/
def mkLimiter (requests : ℕ) (window : ℤ) (now : ℤ) : Limiter :=
  ⟨requests, window, fun _ => [], 60, now⟩

/-- `_cleanup_old_entries` (main.py:219-233): prune every client's list
against the window ending at `now`. -/
def cleanupOld (rl : Limiter) (now : ℤ) : Limiter :=
  { rl with clients :=
      fun ip => (rl.clients ip).filter (fun r => now - r < rl.window) }

/-- `is_allowed` (main.py:176-217): opportunistic cleanup, then prune this
client's timestamps to the trailing window, store the pruned list, deny
with `remaining = 0` and `reset = now + window` when the count has reached
`requests`, otherwise record `now` and allow with
`remaining = max(0, requests - count) - 1`. -/
def is_allowed (rl : Limiter) (client_ip : String) (now : ℤ) :
    Limiter × RateInfo :=
  let rl := if now - rl.last_cleanup > rl.cleanup_interval
    then { cleanupOld rl now with last_cleanup := now } else rl
  let ts := (rl.clients client_ip).filter (fun r => now - r < rl.window)
  let current := ts.length
  let remaining : ℤ := max 0 ((rl.requests : ℤ) - current)
  if current ≥ rl.requests then
    ({ rl with clients := Function.update rl.clients client_ip ts },
      ⟨false, 0, now + rl.window, rl.requests⟩)
  else
    ({ rl with clients := Function.update rl.clients client_ip (ts ++ [now]) },
      ⟨true, remaining - 1, now + rl.window, rl.requests⟩)

/-- The spec §8 scenario: a limiter with `limit=3, window=60` created at
`t0`, four calls from one client at `t1 ≤ t2 ≤ t3 ≤ t4`, and a fifth at
`t5`; returns the five info dicts. -/
def fourCallScenario (t0 t1 t2 t3 t4 t5 : ℤ) (ip : String) :
    RateInfo × RateInfo × RateInfo × RateInfo × RateInfo :=
  let r1 := is_allowed (mkLimiter 3 60 t0) ip t1
  let r2 := is_allowed r1.1 ip t2
  let r3 := is_allowed r2.1 ip t3
  let r4 := is_allowed r3.1 ip t4
  let r5 := is_allowed r4.1 ip t5
  (r1.2, r2.2, r3.2, r4.2, r5.2)

end RateL

namespace Cache

/-- `AdvancedCache` state (main.py:66-76): the `cache` dict maps a key to
a `(value, inserted-at)` pair, `access_times` maps a key to its last
access instant; both are insertion-ordered association lists. -/
structure CacheState (V : Type) where
  cache : List (String × V × ℤ)
  access_times : List (String × ℤ)
  max_size : ℕ
  ttl : ℤ
  hits : ℕ
  misses : ℕ
  evictions : ℕ

variable {V : Type}

/-- CPython dict write: update in place, or append a new key at the end. -/
def setA {β : Type} : List (String × β) → String → β → List (String × β)
  | [], k, v => [(k, v)]
  | (k', v') :: rest, k, v =>
      if k' = k then (k, v) :: rest else (k', v') :: setA rest k v

/-- Stable ascending sort of `access_times.items()` by timestamp —
`sorted(self.access_times.items(), key=lambda x: x[1])` (main.py:128).
Python's `sorted` is stable, and a stable sort by a total preorder is
unique, so this insertion sort computes exactly the same list. -/
def insSorted (p : String × ℤ) : List (String × ℤ) → List (String × ℤ)
  | [] => [p]
  | q :: rest => if q.2 ≤ p.2 then q :: insSorted p rest else p :: q :: rest

def sortByAccess : List (String × ℤ) → List (String × ℤ)
  | [] => []
  | p :: rest => insSorted p (sortByAccess rest)

/-- `AdvancedCache._cleanup_expired` (main.py:108-119): delete every entry
whose age is at least the TTL from both dicts. -/
def cleanup_expired (c : CacheState V) (now : ℤ) : CacheState V :=
  let expired := (c.cache.filter (fun p => now - p.2.2 ≥ c.ttl)).map (·.1)
  { c with cache := c.cache.filter (fun p => p.1 ∉ expired),
           access_times := c.access_times.filter (fun p => p.1 ∉ expired) }

/-- `AdvancedCache._evict_lru` (main.py:121-134): drop the
`max(1, max_size // 5)` entries with the oldest last-access stamps from
both dicts, counting one eviction per victim. -/
def evict_lru (c : CacheState V) : CacheState V :=
  if c.access_times = [] then c
  else
    let victims := (sortByAccess c.access_times).take (max 1 (c.max_size / 5))
    { c with
        cache := c.cache.filter (fun p => p.1 ∉ victims.map (·.1)),
        access_times := c.access_times.filter (fun p => p.1 ∉ victims.map (·.1)),
        evictions := c.evictions + victims.length }

/-- `AdvancedCache.set` (main.py:96-106): sweep expired entries, evict the
least-recently-used block if still at or above capacity, then store the
entry with both stamps set to `now`. -/
def set (c : CacheState V) (key : String) (value : V) (now : ℤ) : CacheState V :=
  let c := cleanup_expired c now
  let c := if c.cache.length ≥ c.max_size then evict_lru c else c
  { c with cache := setA c.cache key (value, now),
           access_times := setA c.access_times key now }

end Cache

namespace Search

/-- One row of the movie DataFrame (`movies_df`), restricted to the columns
`search_movies_in_df` (main.py:748-867) reads: the four searched/filtered
string columns, the numeric filter and sort columns, and the three extra
string columns `movie_to_dict` (main.py:702-745) forwards to the
`MovieModel` conversion.  A `none` cell is a null/NaN entry;
`imdb_score`, `duration` and `budget` are floats, modelled as
rationals. -/
structure Row where
  movie_title : Option (List Char)
  director_name : Option (List Char)
  actor_1_name : Option (List Char)
  genres : Option (List Char)
  title_year : Option ℤ
  imdb_score : Option ℚ
  duration : Option ℚ
  budget : Option ℚ
  plot_keywords : Option (List Char)
  country : Option (List Char)
  language : Option (List Char)
deriving DecidableEq

/-- The parameters of `search_movies_in_df` (main.py:748-760).  `limit` and
`offset` are naturals: the endpoint validates `limit ≥ 1` and
`offset ≥ 0` before this function runs. -/
structure SearchArgs where
  query : List Char
  limit : ℕ
  offset : ℕ
  genre : Option (List Char)
  year : Option ℤ
  min_rating : Option ℚ
  max_rating : Option ℚ
  director : Option (List Char)
  actor : Option (List Char)
  sort_by : List Char
  sort_order : List Char

/-- `str.lower()` over the ASCII range. -/
def pyLower (s : List Char) : List Char := s.map Char.toLower

/-- Whether the first list is a prefix of the second. -/
def isPrefixList : List Char → List Char → Bool
  | [], _ => true
  | _ :: _, [] => false
  | a :: as, b :: bs => decide (a = b) && isPrefixList as bs

/-- Python `pat in hay` / pandas `str.contains(pat, regex=False)`:
plain substring containment. -/
def containsSub (pat : List Char) : List Char → Bool
  | [] => isPrefixList pat []
  | b :: bs => isPrefixList pat (b :: bs) || containsSub pat bs

/-- A pandas case-insensitive substring test with `na=False`: a null cell
never matches, otherwise both sides are lowercased first. -/
def strMatch (field : Option (List Char)) (pat : List Char) : Bool :=
  match field with
  | none => false
  | some s => containsSub (pyLower pat) (pyLower s)

/-- `df["title_year"] == year`: a NaN cell compares unequal. -/
def eqCell (cell : Option ℤ) (y : ℤ) : Bool :=
  match cell with
  | some c => decide (c = y)
  | none => false

/-- `df["imdb_score"] >= m`: a NaN cell compares false. -/
def geCell (cell : Option ℚ) (m : ℚ) : Bool :=
  match cell with
  | some c => decide (c ≥ m)
  | none => false

/-- `df["imdb_score"] <= m`: a NaN cell compares false. -/
def leCell (cell : Option ℚ) (m : ℚ) : Bool :=
  match cell with
  | some c => decide (c ≤ m)
  | none => false

/-- Python truthiness of an optional string argument: `None` and `""` are
falsy. -/
def truthyStr (g : List Char) : Bool := decide (g ≠ [])

/-- Python truthiness of an optional int: `None` and `0` are falsy. -/
def truthyInt (y : ℤ) : Bool := decide (y ≠ 0)

/-- Python truthiness of an optional float: `None` and `0.0` are falsy. -/
def truthyRat (q : ℚ) : Bool := decide (q ≠ 0)

/-- One `if arg: filtered_df = filtered_df[pred]` block of
`search_movies_in_df` (main.py:798-831): the filter runs only when the
argument was supplied AND is truthy. -/
def gFilter {β : Type} (tr : β → Bool) (pred : β → Row → Bool)
    (v : Option β) (df : List Row) : List Row :=
  match v with
  | some b => if tr b then df.filter (pred b) else df
  | none => df

/-- The per-row predicate actually enforced by one `if arg:` block: rows
pass vacuously when the argument is missing or falsy. -/
def gPred {β : Type} (tr : β → Bool) (pred : β → Row → Bool)
    (v : Option β) (r : Row) : Bool :=
  match v with
  | some b => if tr b then pred b r else true
  | none => true

/-- The query stage of `search_movies_in_df` (main.py:770-796): when the
query string is non-empty, keep the rows where any of title, director,
lead actor or genres contains the lowercased query. -/
def queryMatch (q : List Char) (r : Row) : Bool :=
  strMatch r.movie_title q || strMatch r.director_name q ||
    strMatch r.actor_1_name q || strMatch r.genres q

/-- `if query:` — the whole stage is skipped for the empty query. -/
def queryStage (a : SearchArgs) (df : List Row) : List Row :=
  if a.query = [] then df else df.filter (queryMatch a.query)

/-- The filter stage of `search_movies_in_df` (main.py:798-831): the six
`if arg:` blocks, applied in source order. -/
def applyFilters (a : SearchArgs) (df : List Row) : List Row :=
  let df1 := gFilter truthyStr (fun g r => strMatch r.genres g) a.genre df
  let df2 := gFilter truthyInt (fun y r => eqCell r.title_year y) a.year df1
  let df3 := gFilter truthyRat (fun m r => geCell r.imdb_score m)
    a.min_rating df2
  let df4 := gFilter truthyRat (fun m r => leCell r.imdb_score m)
    a.max_rating df3
  let df5 := gFilter truthyStr (fun d r => strMatch r.director_name d)
    a.director df4
  gFilter truthyStr (fun x r => strMatch r.actor_1_name x) a.actor df5

/-- The conjunction of the six guards as the code enforces them: a
supplied-but-falsy argument (empty string, `0`, `0.0`) filters nothing. -/
def truthyPred (a : SearchArgs) (r : Row) : Bool :=
  gPred truthyStr (fun g r => strMatch r.genres g) a.genre r &&
    gPred truthyInt (fun y r => eqCell r.title_year y) a.year r &&
    gPred truthyRat (fun m r => geCell r.imdb_score m) a.min_rating r &&
    gPred truthyRat (fun m r => leCell r.imdb_score m) a.max_rating r &&
    gPred truthyStr (fun d r => strMatch r.director_name d) a.director r &&
    gPred truthyStr (fun x r => strMatch r.actor_1_name x) a.actor r

/-- The filter-stage predicate in the words of the claim: "each supplied
filter is applied as an independent AND predicate ... including when a
supplied numeric filter value is 0" — every `some` argument filters,
truthy or not.  This is the spec-side definition C4 is compared against. -/
def claimPred (a : SearchArgs) (r : Row) : Bool :=
  (match a.genre with | some g => strMatch r.genres g | none => true) &&
    (match a.year with | some y => eqCell r.title_year y | none => true) &&
    (match a.min_rating with
      | some m => geCell r.imdb_score m | none => true) &&
    (match a.max_rating with
      | some m => leCell r.imdb_score m | none => true) &&
    (match a.director with
      | some d => strMatch r.director_name d | none => true) &&
    (match a.actor with
      | some x => strMatch r.actor_1_name x | none => true)

/-- Comparator on optional sort keys with `na_position="last"`: a null
cell sorts after everything, otherwise the cells compare ascending or
descending. -/
def ordOpt {β : Type} [LinearOrder β] (asc : Bool) :
    Option β → Option β → Bool
  | none, none => true
  | none, some _ => false
  | some _, none => true
  | some x, some y => if asc then decide (x ≤ y) else decide (y ≤ x)

/-- Insert into a list sorted by `le`. -/
def insertLe {β : Type} (le : β → β → Bool) (x : β) : List β → List β
  | [] => [x]
  | y :: ys => if le x y then x :: y :: ys else y :: insertLe le x ys

/-- Comparison sort by `le` (insertion sort).  pandas
`sort_values(kind="quicksort")` leaves the relative order of tied rows
unspecified, so only facts that hold for every reordering of ties —
length, membership — are claimed of this stage. -/
def sortLe {β : Type} (le : β → β → Bool) : List β → List β
  | [] => []
  | x :: xs => insertLe le x (sortLe le xs)

/-- The sort stage of `search_movies_in_df` (main.py:833-849):
`sort_column_mapping` sends `rating`, `year`, `title`, `duration`,
`budget` to their columns; an unmapped `sort_by` skips sorting;
`ascending = sort_order.lower() == "asc"`. -/
def sortStage (a : SearchArgs) (df : List Row) : List Row :=
  let asc := pyLower a.sort_order = "asc".data
  if a.sort_by = "rating".data then
    sortLe (fun r s => ordOpt asc r.imdb_score s.imdb_score) df
  else if a.sort_by = "year".data then
    sortLe (fun r s => ordOpt asc r.title_year s.title_year) df
  else if a.sort_by = "title".data then
    sortLe (fun r s => ordOpt asc r.movie_title s.movie_title) df
  else if a.sort_by = "duration".data then
    sortLe (fun r s => ordOpt asc r.duration s.duration) df
  else if a.sort_by = "budget".data then
    sortLe (fun r s => ordOpt asc r.budget s.budget) df
  else df

/-- Python `int()` on a float: truncation toward zero. -/
def pyInt (q : ℚ) : ℤ := if 0 ≤ q then ⌊q⌋ else ⌈q⌉

/-- Success of `MovieModel(**movie_to_dict(row))` for one paginated row
(main.py:242-288, 702-745, 857-866).  `movie_to_dict` strips every string
cell (a null string cell becomes `None`, except the title, where `str` of
a NaN cell yields the non-empty literal string "nan"), converts
`title_year` and `duration` with `int()`, and pydantic then enforces the
`Field` bounds: title non-empty and at most 500 characters, year in
[1880, 2030], rating in [0, 10], genre and director at most 200, duration
in [1, 1000], budget nonnegative, actors at most 1000, plot at most 2000,
country and language at most 100.  A `ValidationError` is caught by the
loop's `except ... continue`, which silently drops the row from the
page. -/
def rowOk (r : Row) : Bool :=
  (match r.movie_title with
    | some s => decide (pyStrip s ≠ []) && decide ((pyStrip s).length ≤ 500)
    | none => true) &&
  (match r.title_year with
    | some y => decide (1880 ≤ y) && decide (y ≤ 2030)
    | none => true) &&
  (match r.imdb_score with
    | some q => decide (0 ≤ q) && decide (q ≤ 10)
    | none => true) &&
  (match r.genres with
    | some s => decide ((pyStrip s).length ≤ 200)
    | none => true) &&
  (match r.director_name with
    | some s => decide ((pyStrip s).length ≤ 200)
    | none => true) &&
  (match r.duration with
    | some q => decide (1 ≤ pyInt q) && decide (pyInt q ≤ 1000)
    | none => true) &&
  (match r.budget with
    | some q => decide (0 ≤ q)
    | none => true) &&
  (match r.actor_1_name with
    | some s => decide ((pyStrip s).length ≤ 1000)
    | none => true) &&
  (match r.plot_keywords with
    | some s => decide ((pyStrip s).length ≤ 2000)
    | none => true) &&
  (match r.country with
    | some s => decide ((pyStrip s).length ≤ 100)
    | none => true) &&
  (match r.language with
    | some s => decide ((pyStrip s).length ≤ 100)
    | none => true)

/-- `search_movies_in_df` (main.py:748-867): query stage, filter stage,
sort stage, `total_count = len(filtered_df)`, the page slice
`filtered_df.iloc[offset : offset + limit]`, and the `MovieModel`
conversion loop (main.py:857-866), whose `except ... continue` drops every
slice row failing validation from the returned page — the surviving rows
stand in one-to-one order-preserving correspondence with the returned
models.  Returns (page, total). -/
def search_movies_in_df (df : List Row) (a : SearchArgs) : List Row × ℕ :=
  let f := sortStage a (applyFilters a (queryStage a df))
  (((f.drop a.offset).take a.limit).filter rowOk, f.length)

end Search

namespace AVL

variable {α : Type}

@[simp] theorem hgt_nil : hgt (.nil : Tree α) = 0 := rfl

@[simp] theorem hgt_node (l : Tree α) (k : α) (r : Tree α) (h : ℕ) :
    hgt (.node l k r h) = h := rfl

theorem avl_heightsOk {t : Tree α} (h : Avl t) : HeightsOk t := by
  induction t with
  | nil => trivial
  | node l k r ht ihl ihr =>
      obtain ⟨h1, h2, h3, -, -⟩ := h
      exact ⟨ihl h1, ihr h2, h3⟩

theorem avl_bfOk {t : Tree α} (h : Avl t) : BfOk t := by
  induction t with
  | nil => trivial
  | node l k r ht ihl ihr =>
      obtain ⟨h1, h2, -, h4, h5⟩ := h
      refine ⟨?_, ihl h1, ihr h2⟩
      simp only [balance_factor, Set.mem_insert_iff, Set.mem_singleton_iff]
      omega

theorem FA_mono {p q : α → Prop} (hpq : ∀ x, p x → q x) {t : Tree α}
    (h : FA p t) : FA q t := by
  induction t with
  | nil => trivial
  | node l k r ht ihl ihr => exact ⟨ihl h.1, hpq _ h.2.1, ihr h.2.2⟩

theorem FA_iff {p : α → Prop} {t : Tree α} :
    FA p t ↔ ∀ x ∈ inorder t, p x := by
  induction t with
  | nil => simp [FA, inorder]
  | node l k r ht ihl ihr =>
      simp only [FA, inorder, List.mem_append, List.mem_cons, ihl, ihr]
      constructor
      · rintro ⟨h1, h2, h3⟩ x (hx | rfl | hx)
        · exact h1 x hx
        · exact h2
        · exact h3 x hx
      · intro h
        exact ⟨fun x hx => h x (Or.inl hx), h k (Or.inr (Or.inl rfl)),
          fun x hx => h x (Or.inr (Or.inr hx))⟩

theorem inorder_upd (l : Tree α) (k : α) (r : Tree α) :
    inorder (upd l k r) = inorder l ++ k :: inorder r := rfl

theorem inorder_rotate_left (t : Tree α) :
    inorder (rotate_left t) = inorder t := by
  match t with
  | .nil => rfl
  | .node l k .nil h => rfl
  | .node l k (.node rl rk rr rh) h => simp [rotate_left, inorder, upd]

theorem inorder_rotate_right (t : Tree α) :
    inorder (rotate_right t) = inorder t := by
  match t with
  | .nil => rfl
  | .node .nil k r h => rfl
  | .node (.node ll lk lr lh) k r h => simp [rotate_right, inorder, upd]

theorem inorder_balance (l : Tree α) (k : α) (r : Tree α) (h : ℕ) :
    inorder (balance (.node l k r h)) = inorder l ++ k :: inorder r := by
  simp only [balance]
  split_ifs <;>
    simp [inorder_rotate_left, inorder_rotate_right, inorder_upd, inorder]

theorem FA_balance {p : α → Prop} {l : Tree α} {k : α} {r : Tree α} {h : ℕ}
    (hfa : FA p (.node l k r h)) : FA p (balance (.node l k r h)) := by
  rw [FA_iff] at hfa ⊢
  simpa [inorder_balance, inorder] using hfa

/-- Rotations preserve the BST ordering. -/
theorem Ord_rotate_left [LinearOrder α] {t : Tree α} (h : Ord t) :
    Ord (rotate_left t) := by
  match t with
  | .nil => exact h
  | .node l k .nil ht => exact h
  | .node l k (.node rl rk rr rh) ht =>
      obtain ⟨hl, ⟨hrl, hrr, hrl', hrr'⟩, hfl, ⟨hfl2, hkrk, hfr2⟩⟩ := h
      refine ⟨⟨hl, hrl, hfl, hfl2⟩, hrr, ⟨?_, hkrk, hrl'⟩, hrr'⟩
      exact FA_mono (fun x hx => lt_trans hx hkrk) hfl

theorem Ord_rotate_right [LinearOrder α] {t : Tree α} (h : Ord t) :
    Ord (rotate_right t) := by
  match t with
  | .nil => exact h
  | .node .nil k r ht => exact h
  | .node (.node ll lk lr lh) k r ht =>
      obtain ⟨⟨hll, hlr, hfAll, hfAlr⟩, hr, ⟨hfkll, hlkk, hfklr⟩, hfr⟩ := h
      exact ⟨hll, ⟨hlr, hr, hfklr, hfr⟩, hfAll,
        ⟨hfAlr, hlkk, FA_mono (fun x hx => lt_trans hlkk hx) hfr⟩⟩

theorem Ord_balance [LinearOrder α] {l : Tree α} {k : α} {r : Tree α} {h : ℕ}
    (ho : Ord (.node l k r h)) : Ord (balance (.node l k r h)) := by
  obtain ⟨hl, hr, hfl, hfr⟩ := ho
  have hupd : ∀ h' : ℕ, Ord (Tree.node l k r h') := fun _ => ⟨hl, hr, hfl, hfr⟩
  simp only [balance]
  split_ifs with h1 h2 h3 h4
  · -- left-right: pre-rotate the left child, then rotate right
    refine Ord_rotate_right ⟨Ord_rotate_left hl, hr, ?_, hfr⟩
    rw [FA_iff] at hfl ⊢
    simpa [inorder_rotate_left] using hfl
  · exact Ord_rotate_right (hupd _)
  · -- right-left
    refine Ord_rotate_left ⟨hl, Ord_rotate_right hr, hfl, ?_⟩
    rw [FA_iff] at hfr ⊢
    simpa [inorder_rotate_right] using hfr
  · exact Ord_rotate_left (hupd _)
  · exact hupd _

/-- Height/balance specification of `_balance`: on a node whose subtrees
are AVL and whose heights differ by at most 2, `_balance` returns an AVL
tree whose height is `max` or `max + 1` of the children's heights, and
exactly `max + 1` when no rotation was needed. -/
theorem balance_spec (l : Tree α) (k : α) (r : Tree α) (h : ℕ)
    (hl : Avl l) (hr : Avl r)
    (d1 : hgt l ≤ hgt r + 2) (d2 : hgt r ≤ hgt l + 2) :
    Avl (balance (.node l k r h)) ∧
    max (hgt l) (hgt r) ≤ hgt (balance (.node l k r h)) ∧
    hgt (balance (.node l k r h)) ≤ max (hgt l) (hgt r) + 1 ∧
    (hgt l ≤ hgt r + 1 → hgt r ≤ hgt l + 1 →
      hgt (balance (.node l k r h)) = max (hgt l) (hgt r) + 1) := by
  simp only [balance]
  split_ifs with c1 c2 c3 c4
  · -- left-heavy, left child right-leaning: left-right double rotation
    rcases l with _ | ⟨ll, lk, lr, lh⟩
    · simp only [hgt_nil] at c1; omega
    obtain ⟨hAll, hAlr, hlh, hb1, hb2⟩ := hl
    simp only [balance_factor] at c2
    rcases lr with _ | ⟨lrl, lrk, lrr, lrh⟩
    · simp only [hgt_nil] at c2; omega
    obtain ⟨hAlrl, hAlrr, hlrh, hc1, hc2⟩ := hAlr
    simp only [hgt_node] at c1 c2 d1 d2 hlh hb1 hb2 ⊢
    simp only [rotate_left, rotate_right, upd, Avl, hgt_node]
    refine ⟨⟨⟨hAll, hAlrl, trivial, ?_, ?_⟩, ⟨hAlrr, hr, trivial, ?_, ?_⟩, trivial, ?_, ?_⟩,
      ?_, ?_, ?_⟩ <;> omega
  · -- left-heavy, left child not right-leaning: single right rotation
    rcases l with _ | ⟨ll, lk, lr, lh⟩
    · simp only [hgt_nil] at c1; omega
    obtain ⟨hAll, hAlr, hlh, hb1, hb2⟩ := hl
    simp only [balance_factor, not_lt] at c2
    simp only [hgt_node] at c1 d1 d2 hlh hb1 hb2 ⊢
    simp only [rotate_right, upd, Avl, hgt_node]
    refine ⟨⟨hAll, ⟨hAlr, hr, trivial, ?_, ?_⟩, trivial, ?_, ?_⟩, ?_, ?_, ?_⟩ <;> omega
  · -- right-heavy, right child left-leaning: right-left double rotation
    rcases r with _ | ⟨rl, rk, rr, rh⟩
    · simp only [hgt_nil] at c3; omega
    obtain ⟨hArl, hArr, hrh, hb1, hb2⟩ := hr
    simp only [balance_factor] at c4
    rcases rl with _ | ⟨rll, rlk, rlr, rlh⟩
    · simp only [hgt_nil] at c4; omega
    obtain ⟨hArll, hArlr, hrlh, hc1, hc2⟩ := hArl
    simp only [hgt_node] at c1 c3 c4 d1 d2 hrh hb1 hb2 ⊢
    simp only [rotate_left, rotate_right, upd, Avl, hgt_node]
    refine ⟨⟨⟨hl, hArll, trivial, ?_, ?_⟩, ⟨hArlr, hArr, trivial, ?_, ?_⟩, trivial, ?_, ?_⟩,
      ?_, ?_, ?_⟩ <;> omega
  · -- right-heavy, right child not left-leaning: single left rotation
    rcases r with _ | ⟨rl, rk, rr, rh⟩
    · simp only [hgt_nil] at c3; omega
    obtain ⟨hArl, hArr, hrh, hb1, hb2⟩ := hr
    simp only [balance_factor, not_lt] at c4
    simp only [hgt_node] at c1 c3 d1 d2 hrh hb1 hb2 ⊢
    simp only [rotate_left, upd, Avl, hgt_node]
    refine ⟨⟨⟨hl, hArl, trivial, ?_, ?_⟩, hArr, trivial, ?_, ?_⟩, ?_, ?_, ?_⟩ <;> omega
  · -- already balanced: only the height field is rewritten
    simp only [not_lt] at c1 c3
    simp only [upd, Avl, hgt_node]
    refine ⟨⟨hl, hr, trivial, ?_, ?_⟩, ?_, ?_, fun _ _ => trivial⟩ <;> omega

/-- `_insert` preserves the AVL height invariants and changes the height by
at most one (it can temporarily shrink a freshly rebalanced subtree's
height relative to `h+1`, but never below `h`). -/
theorem insertAux_spec [LinearOrder α] (t : Tree α) (key : α) (ha : Avl t) :
    Avl (insertAux t key) ∧ hgt t ≤ hgt (insertAux t key) ∧
      hgt (insertAux t key) ≤ hgt t + 1 := by
  induction t with
  | nil =>
      refine ⟨⟨trivial, trivial, ?_, ?_, ?_⟩, ?_, ?_⟩ <;>
        simp [insertAux, hgt_nil, hgt_node]
  | node l k r h ihl ihr =>
      obtain ⟨hal, har, hh, hb1, hb2⟩ := ha
      simp only [insertAux]
      split_ifs with he hlt
      · exact ⟨⟨hal, har, hh, hb1, hb2⟩, le_refl _, by omega⟩
      · obtain ⟨ih1, ih2, ih3⟩ := ihl hal
        obtain ⟨s1, s2, s3, s4⟩ :=
          balance_spec (insertAux l key) k r h ih1 har (by omega) (by omega)
        refine ⟨s1, ?_, ?_⟩ <;>
          · simp only [hgt_node]
            by_cases hc1 : hgt (insertAux l key) ≤ hgt r + 1
            · by_cases hc2 : hgt r ≤ hgt (insertAux l key) + 1
              · have := s4 hc1 hc2; omega
              · omega
            · omega
      · obtain ⟨ih1, ih2, ih3⟩ := ihr har
        obtain ⟨s1, s2, s3, s4⟩ :=
          balance_spec l k (insertAux r key) h hal ih1 (by omega) (by omega)
        refine ⟨s1, ?_, ?_⟩ <;>
          · simp only [hgt_node]
            by_cases hc1 : hgt l ≤ hgt (insertAux r key) + 1
            · by_cases hc2 : hgt (insertAux r key) ≤ hgt l + 1
              · have := s4 hc1 hc2; omega
              · omega
            · omega

/-- `_delete` preserves the AVL height invariants and shrinks the height by
at most one. -/
theorem deleteAux_spec [LinearOrder α] (t : Tree α) :
    ∀ key, Avl t → Avl (deleteAux t key) ∧ hgt (deleteAux t key) ≤ hgt t ∧
      hgt t ≤ hgt (deleteAux t key) + 1 := by
  induction t with
  | nil => intro key _; exact ⟨trivial, le_refl _, by simp [deleteAux, hgt_nil]⟩
  | node l k r h ihl ihr =>
      intro key ha
      obtain ⟨hal, har, hh, hb1, hb2⟩ := ha
      simp only [deleteAux]
      split_ifs with hlt hgtt hnl hnr
      · -- key < k
        obtain ⟨ih1, ih2, ih3⟩ := ihl key hal
        obtain ⟨s1, s2, s3, s4⟩ :=
          balance_spec (deleteAux l key) k r h ih1 har (by omega) (by omega)
        refine ⟨s1, ?_, ?_⟩ <;>
          · simp only [hgt_node]
            by_cases hc1 : hgt (deleteAux l key) ≤ hgt r + 1
            · by_cases hc2 : hgt r ≤ hgt (deleteAux l key) + 1
              · have := s4 hc1 hc2; omega
              · omega
            · omega
      · -- k < key
        obtain ⟨ih1, ih2, ih3⟩ := ihr key har
        obtain ⟨s1, s2, s3, s4⟩ :=
          balance_spec l k (deleteAux r key) h hal ih1 (by omega) (by omega)
        refine ⟨s1, ?_, ?_⟩ <;>
          · simp only [hgt_node]
            by_cases hc1 : hgt l ≤ hgt (deleteAux r key) + 1
            · by_cases hc2 : hgt (deleteAux r key) ≤ hgt l + 1
              · have := s4 hc1 hc2; omega
              · omega
            · omega
      · -- key found, left child absent: return the right child
        rcases l with _ | ⟨ll, lk, lr, lh⟩
        · exact ⟨har, by simp only [hgt_node, hgt_nil] at *; omega,
            by simp only [hgt_node, hgt_nil] at *; omega⟩
        · simp [isNil] at hnl
      · -- key found, right child absent: return the left child
        rcases r with _ | ⟨rl, rk, rr, rh⟩
        · exact ⟨hal, by simp only [hgt_node, hgt_nil] at *; omega,
            by simp only [hgt_node, hgt_nil] at *; omega⟩
        · simp [isNil] at hnr
      · -- two children: splice in the in-order successor
        obtain ⟨ih1, ih2, ih3⟩ := ihr (findMinD r k) har
        obtain ⟨s1, s2, s3, s4⟩ :=
          balance_spec l (findMinD r k) (deleteAux r (findMinD r k)) h hal ih1
            (by omega) (by omega)
        refine ⟨s1, ?_, ?_⟩ <;>
          · simp only [hgt_node]
            by_cases hc1 : hgt l ≤ hgt (deleteAux r (findMinD r k)) + 1
            · by_cases hc2 : hgt (deleteAux r (findMinD r k)) ≤ hgt l + 1
              · have := s4 hc1 hc2; omega
              · omega
            · omega

theorem FA_and {p q : α → Prop} {t : Tree α} (hp : FA p t) (hq : FA q t) :
    FA (fun x => p x ∧ q x) t := by
  induction t with
  | nil => trivial
  | node l k r ht ihl ihr =>
      exact ⟨ihl hp.1 hq.1, ⟨hp.2.1, hq.2.1⟩, ihr hp.2.2 hq.2.2⟩

theorem FA_insertAux [LinearOrder α] {p : α → Prop} {t : Tree α} {key : α}
    (h : FA p t) (hp : p key) : FA p (insertAux t key) := by
  induction t with
  | nil => exact ⟨trivial, hp, trivial⟩
  | node l k r ht ihl ihr =>
      obtain ⟨h1, h2, h3⟩ := h
      simp only [insertAux]
      split_ifs with he hlt
      · exact ⟨h1, h2, h3⟩
      · exact FA_balance ⟨ihl h1, h2, h3⟩
      · exact FA_balance ⟨h1, h2, ihr h3⟩

theorem Ord_insertAux [LinearOrder α] {t : Tree α} (key : α) (h : Ord t) :
    Ord (insertAux t key) := by
  induction t with
  | nil => exact ⟨trivial, trivial, trivial, trivial⟩
  | node l k r ht ihl ihr =>
      obtain ⟨h1, h2, h3, h4⟩ := h
      simp only [insertAux]
      split_ifs with he hlt
      · exact ⟨h1, h2, h3, h4⟩
      · exact Ord_balance ⟨ihl h1, h2, FA_insertAux h3 hlt, h4⟩
      · have hk : k < key := by
          rcases lt_trichotomy key k with hc | hc | hc
          · exact absurd hc hlt
          · exact absurd hc he
          · exact hc
        exact Ord_balance ⟨h1, ihr h2, h3, FA_insertAux h4 hk⟩

theorem findMinD_FA {p : α → Prop} (t : Tree α) (d : α) (h : FA p t)
    (hd : p d) : p (findMinD t d) := by
  induction t generalizing d with
  | nil => exact hd
  | node l k r ht ihl ihr => exact ihl k h.1 h.2.1

/-- On a non-empty tree `_find_min` ignores the default. -/
theorem findMinD_FA' {p : α → Prop} {rl : Tree α} {rk : α} {rr : Tree α}
    {rh : ℕ} (h : FA p (.node rl rk rr rh)) (d : α) :
    p (findMinD (.node rl rk rr rh) d) := by
  simp only [findMinD]
  exact findMinD_FA rl rk h.1 h.2.1

theorem findMinD_min [LinearOrder α] (l : Tree α) (k : α) (hOl : Ord l)
    (hfl : FA (· < k) l) :
    findMinD l k ≤ k ∧ FA (fun x => findMinD l k ≤ x) l := by
  induction l generalizing k with
  | nil => exact ⟨le_refl k, trivial⟩
  | node ll lk lr ht ihl ihr =>
      obtain ⟨hll, hlr, hfAll, hfAlr⟩ := hOl
      obtain ⟨hf1, hlkk, hf2⟩ := hfl
      obtain ⟨ih1, ih2⟩ := ihl lk hll hfAll
      simp only [findMinD]
      exact ⟨ih1.trans hlkk.le, ih2, ih1,
        FA_mono (fun x hx => ih1.trans hx.le) hfAlr⟩

/-- `_find_min` of a non-empty ordered tree is a lower bound for it. -/
theorem findMin_lb [LinearOrder α] {rl : Tree α} {rk : α} {rr : Tree α}
    {rh : ℕ} {d : α} (h : Ord (.node rl rk rr rh)) :
    FA (fun x => findMinD (.node rl rk rr rh) d ≤ x) (.node rl rk rr rh) := by
  obtain ⟨hrl, hrr, hf1, hf2⟩ := h
  obtain ⟨ih1, ih2⟩ := findMinD_min rl rk hrl hf1
  simp only [findMinD]
  exact ⟨ih2, ih1, FA_mono (fun x hx => ih1.trans hx.le) hf2⟩

theorem FA_deleteAux [LinearOrder α] {p : α → Prop} :
    ∀ (t : Tree α), FA p t → ∀ key, FA p (deleteAux t key) := by
  intro t
  induction t with
  | nil => intro _ _; trivial
  | node l k r ht ihl ihr =>
      intro h key
      obtain ⟨h1, h2, h3⟩ := h
      simp only [deleteAux]
      split_ifs with hlt hgtt hnl hnr
      · exact FA_balance ⟨ihl h1 key, h2, h3⟩
      · exact FA_balance ⟨h1, h2, ihr h3 key⟩
      · exact h3
      · exact h1
      · rcases r with _ | ⟨rl, rk, rr, rh⟩
        · simp [isNil] at hnr
        exact FA_balance ⟨h1, findMinD_FA' h3 k, ihr h3 _⟩

theorem deleteAux_ne [LinearOrder α] :
    ∀ (t : Tree α), Ord t → ∀ key, FA (· ≠ key) (deleteAux t key) := by
  intro t
  induction t with
  | nil => intro _ _; trivial
  | node l k r ht ihl ihr =>
      intro ho key
      obtain ⟨h1, h2, h3, h4⟩ := ho
      simp only [deleteAux]
      split_ifs with hlt hgtt hnl hnr
      · exact FA_balance ⟨ihl h1 key, ne_of_gt hlt,
          FA_mono (fun x hx => ne_of_gt (hlt.trans hx)) h4⟩
      · exact FA_balance ⟨FA_mono (fun x hx => ne_of_lt (hx.trans hgtt)) h3,
          ne_of_lt hgtt, ihr h2 key⟩
      · have hkey : key = k := le_antisymm (not_lt.mp hgtt) (not_lt.mp hlt)
        subst hkey
        exact FA_mono (fun x hx => ne_of_gt hx) h4
      · have hkey : key = k := le_antisymm (not_lt.mp hgtt) (not_lt.mp hlt)
        subst hkey
        exact FA_mono (fun x hx => ne_of_lt hx) h3
      · have hkey : key = k := le_antisymm (not_lt.mp hgtt) (not_lt.mp hlt)
        subst hkey
        rcases r with _ | ⟨rl, rk, rr, rh⟩
        · simp [isNil] at hnr
        refine FA_balance ⟨FA_mono (fun x hx => ne_of_lt hx) h3,
          ne_of_gt (findMinD_FA' h4 key), ?_⟩
        exact FA_mono (fun x hx => ne_of_gt hx)
          (FA_deleteAux _ h4 (findMinD (.node rl rk rr rh) key))

theorem Ord_deleteAux [LinearOrder α] :
    ∀ (t : Tree α), Ord t → ∀ key, Ord (deleteAux t key) := by
  intro t
  induction t with
  | nil => intro _ _; trivial
  | node l k r ht ihl ihr =>
      intro ho key
      have ho' := ho
      obtain ⟨h1, h2, h3, h4⟩ := ho
      simp only [deleteAux]
      split_ifs with hlt hgtt hnl hnr
      · exact Ord_balance ⟨ihl h1 key, h2, FA_deleteAux l h3 key, h4⟩
      · exact Ord_balance ⟨h1, ihr h2 key, h3, FA_deleteAux r h4 key⟩
      · exact h2
      · exact h1
      · rcases r with _ | ⟨rl, rk, rr, rh⟩
        · simp [isNil] at hnr
        have hkm : k < findMinD (.node rl rk rr rh) k := findMinD_FA' h4 k
        refine Ord_balance ⟨h1, ihr h2 _,
          FA_mono (fun x hx => hx.trans hkm) h3, ?_⟩
        have hub := FA_deleteAux _ (findMin_lb (d := k) h2)
          (findMinD (.node rl rk rr rh) k)
        have hne := deleteAux_ne _ h2 (findMinD (.node rl rk rr rh) k)
        exact FA_mono (fun x hx => lt_of_le_of_ne hx.1 (Ne.symm hx.2))
          (FA_and hub hne)

theorem Ord_sorted [LinearOrder α] :
    ∀ t : Tree α, Ord t → (inorder t).Sorted (· < ·) := by
  intro t
  induction t with
  | nil => intro _; simp [inorder, List.Sorted]
  | node l k r ht ihl ihr =>
      intro ho
      obtain ⟨h1, h2, h3, h4⟩ := ho
      simp only [inorder]
      refine List.pairwise_append.mpr ⟨ihl h1, ?_, ?_⟩
      · exact List.pairwise_cons.mpr ⟨fun x hx => (FA_iff.mp h4) x hx, ihr h2⟩
      · intro a ha b hb
        rcases List.mem_cons.mp hb with rfl | hb
        · exact (FA_iff.mp h3) a ha
        · exact ((FA_iff.mp h3) a ha).trans ((FA_iff.mp h4) b hb)

theorem insert_wf (t : Tree (List Char)) (s : String)
    (h1 : Avl t) (h2 : Ord t) : Avl (insert t s).1 ∧ Ord (insert t s).1 := by
  unfold insert
  split_ifs with c1 c2
  · exact ⟨h1, h2⟩
  · exact ⟨h1, h2⟩
  · exact ⟨(insertAux_spec t _ h1).1, Ord_insertAux _ h2⟩

theorem delete_wf (t : Tree (List Char)) (s : String)
    (h1 : Avl t) (h2 : Ord t) : Avl (delete t s).1 ∧ Ord (delete t s).1 := by
  unfold delete
  split_ifs with c1 c2
  · exact ⟨h1, h2⟩
  · exact ⟨h1, h2⟩
  · exact ⟨(deleteAux_spec t _ h1).1, Ord_deleteAux t h2 _⟩

end AVL

namespace Trie

@[simp] theorem children_mk (ch : List (Char × Node)) (e : Bool) :
    children (.mk ch e) = ch := rfl

@[simp] theorem isEnd_mk (ch : List (Char × Node)) (e : Bool) :
    isEnd (.mk ch e) = e := rfl

theorem assocSet_ne_nil (l : List (Char × Node)) (c : Char) (n : Node) :
    assocSet l c n ≠ [] := by
  match l with
  | [] => simp [assocSet]
  | (c', m) :: rest => simp only [assocSet]; split_ifs <;> simp

theorem mem_assocSet {l : List (Char × Node)} {c : Char} {n : Node} :
    ∀ p ∈ assocSet l c n, p ∈ l ∨ p = (c, n) := by
  induction l with
  | nil => intro p hp; simp [assocSet] at hp; simp [hp]
  | cons q rest ih =>
      intro p hp
      obtain ⟨c', m⟩ := q
      simp only [assocSet] at hp
      split_ifs at hp with hc
      · rcases List.mem_cons.mp hp with rfl | hp
        · exact Or.inr rfl
        · exact Or.inl (List.mem_cons_of_mem _ hp)
      · rcases List.mem_cons.mp hp with rfl | hp
        · exact Or.inl (List.mem_cons_self _ _)
        · rcases ih p hp with h | h
          · exact Or.inl (List.mem_cons_of_mem _ h)
          · exact Or.inr h

theorem assocFind_mem {l : List (Char × Node)} {c : Char} {m : Node} :
    assocFind l c = some m → (c, m) ∈ l ∨ ∃ c', (c', m) ∈ l := by
  induction l with
  | nil => intro h; simp [assocFind] at h
  | cons q rest ih =>
      intro h
      obtain ⟨c', m'⟩ := q
      simp only [assocFind] at h
      split_ifs at h with hc
      · obtain rfl : m' = m := by simpa using h
        subst hc
        exact Or.inl (List.mem_cons_self _ _)
      · rcases ih h with h' | ⟨c'', h''⟩
        · exact Or.inl (List.mem_cons_of_mem _ h')
        · exact Or.inr ⟨c'', List.mem_cons_of_mem _ h''⟩

/-- A successful `children[char]` lookup returns a node stored in the dict. -/
theorem assocFind_mem_snd {l : List (Char × Node)} {c : Char} {m : Node}
    (h : assocFind l c = some m) : ∃ c', (c', m) ∈ l := by
  rcases assocFind_mem h with h' | h'
  · exact ⟨c, h'⟩
  · exact h'

theorem assocFind_assocSet_self (l : List (Char × Node)) (c : Char) (n : Node) :
    assocFind (assocSet l c n) c = some n := by
  induction l with
  | nil => simp [assocSet, assocFind]
  | cons q rest ih =>
      obtain ⟨c', m⟩ := q
      simp only [assocSet]
      split_ifs with hc
      · simp [assocFind]
      · simp only [assocFind]
        rw [if_neg hc]
        exact ih

theorem assocFind_assocSet_ne (l : List (Char × Node)) {c d : Char} (n : Node)
    (hcd : c ≠ d) : assocFind (assocSet l c n) d = assocFind l d := by
  induction l with
  | nil => simp [assocSet, assocFind, hcd]
  | cons q rest ih =>
      obtain ⟨c', m⟩ := q
      simp only [assocSet]
      split_ifs with hc
      · subst hc
        simp only [assocFind]
        rw [if_neg hcd, if_neg hcd]
      · simp only [assocFind]
        split_ifs with h2
        · rfl
        · exact ih

mutual

theorem suggRec_ext : ∀ (n : Node) (w : List Char) (acc : List (List Char)),
    ∃ ext, suggRec n w acc = acc ++ ext
  | .mk ch e, w, acc => by
      simp only [suggRec]
      split_ifs with h1 h2
      · exact ⟨[], by simp⟩
      · obtain ⟨e1, he1⟩ := suggFold_ext ch w (acc ++ [w])
        exact ⟨[w] ++ e1, by simp [he1]⟩
      · exact suggFold_ext ch w acc

theorem suggFold_ext : ∀ (l : List (Char × Node)) (w : List Char)
    (acc : List (List Char)), ∃ ext, suggFold l w acc = acc ++ ext
  | [], _, acc => ⟨[], by simp [suggFold]⟩
  | (c, m) :: rest, w, acc => by
      simp only [suggFold]
      split_ifs with h1
      · obtain ⟨e1, he1⟩ := suggRec_ext m (w ++ [c]) acc
        obtain ⟨e2, he2⟩ := suggFold_ext rest w (suggRec m (w ++ [c]) acc)
        exact ⟨e1 ++ e2, by rw [he2, he1, List.append_assoc]⟩
      · exact suggFold_ext rest w acc

end

mutual

/-- The collector never grows past the hard cap of 20 (trie.py:42). -/
theorem suggRec_cap : ∀ (n : Node) (w : List Char) (acc : List (List Char)),
    acc.length ≤ 20 → (suggRec n w acc).length ≤ 20
  | .mk ch e, w, acc => by
      intro hlen
      simp only [suggRec]
      split_ifs with h1 h2
      · exact hlen
      · exact suggFold_cap ch w (acc ++ [w]) (by simp; omega)
      · exact suggFold_cap ch w acc hlen

theorem suggFold_cap : ∀ (l : List (Char × Node)) (w : List Char)
    (acc : List (List Char)), acc.length ≤ 20 → (suggFold l w acc).length ≤ 20
  | [], _, acc => fun h => h
  | (c, m) :: rest, w, acc => by
      intro hlen
      simp only [suggFold]
      split_ifs with h1
      · exact suggFold_cap rest w _ (suggRec_cap m (w ++ [c]) acc hlen)
      · exact suggFold_cap rest w acc hlen

end

mutual

/-- Every collected completion is the starting word plus an accumulated
path (trie.py:45-50). -/
theorem suggRec_shape : ∀ (n : Node) (w : List Char) (acc : List (List Char)),
    ∀ x ∈ suggRec n w acc, x ∈ acc ∨ ∃ p, x = w ++ p
  | .mk ch e, w, acc => by
      intro x hx
      simp only [suggRec] at hx
      split_ifs at hx with h1 h2
      · exact Or.inl hx
      · rcases suggFold_shape ch w (acc ++ [w]) x hx with h | h
        · rcases List.mem_append.mp h with h' | h'
          · exact Or.inl h'
          · exact Or.inr ⟨[], by simpa using h'⟩
        · exact Or.inr h
      · exact suggFold_shape ch w acc x hx

theorem suggFold_shape : ∀ (l : List (Char × Node)) (w : List Char)
    (acc : List (List Char)), ∀ x ∈ suggFold l w acc, x ∈ acc ∨ ∃ p, x = w ++ p
  | [], _, acc => fun x hx => Or.inl hx
  | (c, m) :: rest, w, acc => by
      intro x hx
      simp only [suggFold] at hx
      split_ifs at hx with h1
      · rcases suggFold_shape rest w _ x hx with h | h
        · rcases suggRec_shape m (w ++ [c]) acc x h with h' | h'
          · exact Or.inl h'
          · obtain ⟨p, hp⟩ := h'
            exact Or.inr ⟨[c] ++ p, by simp [hp]⟩
        · exact Or.inr h
      · exact suggFold_shape rest w acc x hx

end

/-- `Char.toLower` never produces an ASCII capital letter. -/
theorem toLower_not_upper (c : Char) :
    (Char.toLower c).toNat < 65 ∨ 90 < (Char.toLower c).toNat := by
  rw [Char.toLower]
  show ((if c.toNat ≥ 65 ∧ c.toNat ≤ 90 then Char.ofNat (c.toNat + 32)
      else c).toNat < 65) ∨ _
  split_ifs with h
  · right
    have h2 : (Char.ofNat (c.toNat + 32)).toNat = c.toNat + 32 := by
      rw [Char.ofNat, dif_pos]
      · simp [Char.ofNatAux, Char.toNat, UInt32.toNat]
      · exact Or.inl (by omega)
    omega
  · omega

end Trie

namespace Trie

/-- `insert`'s character loop keeps `Good` and establishes it on the fresh
chains it creates. -/
theorem good_insert_both : ∀ cs : List Char,
    (∀ n, Good n → Good (insertChars n cs)) ∧
      Good (insertChars (.mk [] false) cs) := by
  intro cs
  induction cs with
  | nil =>
      constructor
      · intro n hn
        cases n with | mk ch e =>
        cases hn with | mk hch hcl =>
        exact ⟨hch, fun _ => rfl⟩
      · exact ⟨by simp, fun _ => rfl⟩
  | cons c cs ih =>
      have hstep : ∀ (ch : List (Char × Node)) (e : Bool),
          (∀ p ∈ ch, Good p.2) →
          Good (insertChars (.mk ch e) (c :: cs)) := by
        intro ch e hch
        simp only [insertChars]
        refine ⟨?_, fun hemp => absurd hemp (assocSet_ne_nil _ _ _)⟩
        intro p hp
        rcases mem_assocSet p hp with h | h
        · exact hch p h
        · subst h
          show Good (insertChars ((assocFind ch c).getD (.mk [] false)) cs)
          rcases hfind : assocFind ch c with _ | m
          · simpa [hfind] using ih.2
          · obtain ⟨c', hmem⟩ := assocFind_mem_snd hfind
            simpa [hfind] using ih.1 m (hch (c', m) hmem)
      constructor
      · intro n hn
        cases n with | mk ch e =>
        cases hn with | mk hch hcl =>
        exact hstep ch e hch
      · exact hstep [] false (by simp)

/-- `insert` keeps every child subtree of the root `Good`. -/
theorem good_children_insert (t : Node) (w : String)
    (h : ∀ p ∈ children t, Good p.2) :
    ∀ p ∈ children (insert t w), Good p.2 := by
  unfold insert
  split_ifs with hw
  · exact h
  · cases t with | mk ch e =>
    rcases hd : w.data.map Char.toLower with _ | ⟨c, cs⟩
    · simp only [List.map_eq_nil_iff] at hd
      cases w with | mk d =>
      simp at hd
      simp [hd] at hw
    · simp only [insertChars, children_mk]
      intro p hp
      rcases mem_assocSet p hp with h' | h'
      · exact h p h'
      · subst h'
        show Good (insertChars ((assocFind ch c).getD (.mk [] false)) cs)
        rcases hfind : assocFind ch c with _ | m
        · simpa [hfind] using (good_insert_both cs).2
        · obtain ⟨c', hmem⟩ := assocFind_mem_snd hfind
          simpa [hfind] using (good_insert_both cs).1 m (h (c', m) hmem)

/-- Every child subtree of a trie built by `formTrie` is `Good` (the bare
root may not be: a fresh `TrieNode()` has no children and is not a word
end, but `Good` is only needed below the root). -/
theorem good_children_formTrie (ws : List String) :
    ∀ p ∈ children (formTrie (.mk [] false) ws), Good p.2 := by
  suffices h : ∀ (ws : List String) (t : Node),
      (∀ p ∈ children t, Good p.2) →
      ∀ p ∈ children (formTrie t ws), Good p.2 by
    exact h ws (.mk [] false) (by simp)
  intro ws
  induction ws with
  | nil => intro t ht; simpa [formTrie] using ht
  | cons k rest ih =>
      intro t ht
      show ∀ p ∈ children (formTrie (if k = "" then t
        else insert t ⟨pyStrip k.data⟩) rest), Good p.2
      split_ifs with hk
      · exact ih t ht
      · exact ih _ (good_children_insert t _ ht)

/-- The children of a `Good` node are `Good`. -/
theorem good_children_of_good {n : Node} (h : Good n) :
    ∀ p ∈ children n, Good p.2 := by
  cases h with | mk hch hcl => exact hch

/-- Walking a non-empty path from a root whose child subtrees are all
`Good` ends at a `Good` node. -/
theorem walk_good : ∀ (cs : List Char) (t : Node),
    (∀ p ∈ children t, Good p.2) → cs ≠ [] →
    ∀ n, walk t cs = some n → Good n := by
  intro cs
  induction cs with
  | nil => intro _ _ h; exact absurd rfl h
  | cons c cs ih =>
      intro t ht _ n hw
      cases t with | mk ch e =>
      simp only [walk] at hw
      rcases hfind : assocFind ch c with _ | m
      · rw [hfind] at hw; exact absurd hw (by simp)
      · rw [hfind] at hw
        obtain ⟨c', hmem⟩ := assocFind_mem_snd hfind
        have hgm : Good m := ht (c', m) hmem
        rcases cs with _ | ⟨c2, cs2⟩
        · simp only [walk] at hw
          obtain rfl : m = n := by simpa using hw
          exact hgm
        · exact ih m (good_children_of_good hgm) (by simp) n hw

/-- DFS from a `Good` node below the cap always collects something: it
either records the node's own word or descends into a child, and every
`Good` leaf is a word end. -/
theorem suggRec_good_ne : ∀ (k : ℕ) (n : Node), sizeOf n ≤ k → Good n →
    ∀ w acc, acc.length < 20 → suggRec n w acc ≠ [] := by
  intro k
  induction k with
  | zero =>
      intro n hs
      cases n with | mk ch e =>
      simp only [Node.mk.sizeOf_spec] at hs
      omega
  | succ k ih =>
      intro n hs hg w acc hlen
      cases n with | mk ch e =>
      cases hg with | mk hch hcl =>
      simp only [suggRec]
      rw [if_neg (by omega)]
      by_cases he : e = true
      · subst he
        rw [if_pos rfl]
        obtain ⟨ext, hext⟩ := suggFold_ext ch w (acc ++ [w])
        rw [hext]
        simp
      · rcases hchl : ch with _ | ⟨⟨c, m⟩, rest⟩
        · exact absurd (hcl hchl) he
        subst hchl
        rw [if_neg he]
        simp only [suggFold]
        rw [if_pos hlen]
        have hgm : Good m := hch (c, m) (List.mem_cons_self _ _)
        have hsz : sizeOf m ≤ k := by
          simp only [Node.mk.sizeOf_spec, List.cons.sizeOf_spec,
            Prod.mk.sizeOf_spec] at hs
          omega
        have hne := ih m hsz hgm (w ++ [c]) acc hlen
        obtain ⟨ext, hext⟩ := suggFold_ext rest w (suggRec m (w ++ [c]) acc)
        rw [hext]
        intro hcontra
        exact hne (List.append_eq_nil.mp hcontra).1

end Trie

namespace Trie

theorem lowEdges_children {n : Node} (h : LowEdges n) :
    ∀ p ∈ children n, (p.1.toNat < 65 ∨ 90 < p.1.toNat) ∧ LowEdges p.2 := by
  cases h with | mk h1 h2 => exact fun p hp => ⟨h1 p hp, h2 p hp⟩

/-- `insert`'s character loop keeps all edge labels free of ASCII capitals
when the inserted characters are. -/
theorem low_insert_both : ∀ cs : List Char,
    (∀ c ∈ cs, c.toNat < 65 ∨ 90 < c.toNat) →
    (∀ n, LowEdges n → LowEdges (insertChars n cs)) ∧
      LowEdges (insertChars (.mk [] false) cs) := by
  intro cs
  induction cs with
  | nil =>
      intro _
      constructor
      · intro n hn
        cases n with | mk ch e =>
        cases hn with | mk h1 h2 =>
        exact ⟨h1, h2⟩
      · exact ⟨by simp, by simp⟩
  | cons c cs ih =>
      intro hcs
      have hc : c.toNat < 65 ∨ 90 < c.toNat := hcs c (List.mem_cons_self _ _)
      have hcs' : ∀ c' ∈ cs, c'.toNat < 65 ∨ 90 < c'.toNat :=
        fun c' hc' => hcs c' (List.mem_cons_of_mem _ hc')
      have hstep : ∀ (ch : List (Char × Node)) (e : Bool),
          (∀ p ∈ ch, (p.1.toNat < 65 ∨ 90 < p.1.toNat) ∧ LowEdges p.2) →
          LowEdges (insertChars (.mk ch e) (c :: cs)) := by
        intro ch e hch
        simp only [insertChars]
        refine ⟨?_, ?_⟩ <;> intro p hp <;>
          rcases mem_assocSet p hp with h | h
        · exact (hch p h).1
        · subst h; exact hc
        · exact (hch p h).2
        · subst h
          show LowEdges (insertChars ((assocFind ch c).getD (.mk [] false)) cs)
          rcases hfind : assocFind ch c with _ | m
          · simpa [hfind] using (ih hcs').2
          · obtain ⟨c', hmem⟩ := assocFind_mem_snd hfind
            simpa [hfind] using (ih hcs').1 m ((hch (c', m) hmem).2)
      constructor
      · intro n hn
        cases n with | mk ch e =>
        exact hstep ch e (lowEdges_children hn)
      · exact hstep [] false (by simp)

theorem low_insert (t : Node) (w : String) (h : LowEdges t) :
    LowEdges (insert t w) := by
  unfold insert
  split_ifs with hw
  · exact h
  · refine (low_insert_both _ ?_).1 t h
    intro c hc
    rcases List.mem_map.mp hc with ⟨c', -, rfl⟩
    exact toLower_not_upper c'

theorem low_formTrie (ws : List String) :
    LowEdges (formTrie (.mk [] false) ws) := by
  suffices h : ∀ (ws : List String) (t : Node), LowEdges t →
      LowEdges (formTrie t ws) by
    exact h ws _ ⟨by simp, by simp⟩
  intro ws
  induction ws with
  | nil => intro t ht; simpa [formTrie] using ht
  | cons k rest ih =>
      intro t ht
      show LowEdges (formTrie (if k = "" then t
        else insert t ⟨pyStrip k.data⟩) rest)
      split_ifs with hk
      · exact ih t ht
      · exact ih _ (low_insert t _ ht)

theorem walk_low : ∀ (cs : List Char) (t : Node), LowEdges t →
    ∀ n, walk t cs = some n → LowEdges n := by
  intro cs
  induction cs with
  | nil =>
      intro t ht n hw
      obtain rfl : t = n := by simpa [walk] using hw
      exact ht
  | cons c cs ih =>
      intro t ht n hw
      cases t with | mk ch e =>
      simp only [walk] at hw
      rcases hfind : assocFind ch c with _ | m
      · rw [hfind] at hw; exact absurd hw (by simp)
      · rw [hfind] at hw
        obtain ⟨c', hmem⟩ := assocFind_mem_snd hfind
        exact ih m (lowEdges_children ht (c', m) hmem).2 n hw

mutual

theorem suggRec_low : ∀ (n : Node) (w : List Char) (acc : List (List Char)),
    LowEdges n → (∀ c ∈ w, c.toNat < 65 ∨ 90 < c.toNat) →
    (∀ x ∈ acc, ∀ c ∈ x, c.toNat < 65 ∨ 90 < c.toNat) →
    ∀ x ∈ suggRec n w acc, ∀ c ∈ x, c.toNat < 65 ∨ 90 < c.toNat
  | .mk ch e, w, acc => by
      intro hl hw hacc x hx
      simp only [suggRec] at hx
      split_ifs at hx with h1 h2
      · exact hacc x hx
      · refine suggFold_low ch w (acc ++ [w]) (lowEdges_children hl) hw
          ?_ x hx
        intro y hy
        rcases List.mem_append.mp hy with h | h
        · exact hacc y h
        · obtain rfl : y = w := by simpa using h
          exact hw
      · exact suggFold_low ch w acc (lowEdges_children hl) hw hacc x hx

theorem suggFold_low : ∀ (l : List (Char × Node)) (w : List Char)
    (acc : List (List Char)),
    (∀ p ∈ l, (p.1.toNat < 65 ∨ 90 < p.1.toNat) ∧ LowEdges p.2) →
    (∀ c ∈ w, c.toNat < 65 ∨ 90 < c.toNat) →
    (∀ x ∈ acc, ∀ c ∈ x, c.toNat < 65 ∨ 90 < c.toNat) →
    ∀ x ∈ suggFold l w acc, ∀ c ∈ x, c.toNat < 65 ∨ 90 < c.toNat
  | [], _, acc => fun _ _ hacc x hx => hacc x hx
  | (c, m) :: rest, w, acc => by
      intro hl hw hacc x hx
      simp only [suggFold] at hx
      have hpair := hl (c, m) (List.mem_cons_self _ _)
      have hrest : ∀ p ∈ rest, (p.1.toNat < 65 ∨ 90 < p.1.toNat) ∧ LowEdges p.2 :=
        fun p hp => hl p (List.mem_cons_of_mem _ hp)
      split_ifs at hx with h1
      · refine suggFold_low rest w _ hrest hw ?_ x hx
        refine suggRec_low m (w ++ [c]) acc hpair.2 ?_ hacc
        intro c' hc'
        rcases List.mem_append.mp hc' with h | h
        · exact hw c' h
        · obtain rfl : c' = c := by simpa using h
          exact hpair.1
      · exact suggFold_low rest w acc hrest hw hacc x hx

end

/-- Inserting a word and searching it again (both lowercased by the
callers) succeeds. -/
theorem searchChars_insertChars_self : ∀ (cs : List Char) (n : Node),
    searchChars (insertChars n cs) cs = true
  | [], .mk ch e => rfl
  | c :: cs, .mk ch e => by
      simp only [insertChars, searchChars]
      rw [assocFind_assocSet_self]
      exact searchChars_insertChars_self cs _

/-- A word found in the trie is still found after any further insertion. -/
theorem searchChars_insertChars_mono : ∀ (cs cs' : List Char) (n : Node),
    searchChars n cs = true → searchChars (insertChars n cs') cs = true := by
  intro cs
  induction cs with
  | nil =>
      intro cs' n h
      cases n with | mk ch e =>
      cases cs' with
      | nil => rfl
      | cons c' cs'' => simpa [insertChars, searchChars] using h
  | cons c cs ih =>
      intro cs' n h
      cases n with | mk ch e =>
      simp only [searchChars] at h
      rcases hfind : assocFind ch c with _ | m
      · rw [hfind] at h; exact absurd h (by simp)
      · rw [hfind] at h
        cases cs' with
        | nil =>
            simp only [insertChars, searchChars]
            rw [hfind]
            exact h
        | cons c' cs'' =>
            simp only [insertChars, searchChars]
            by_cases hcc : c' = c
            · subst hcc
              rw [assocFind_assocSet_self, hfind]
              show searchChars (insertChars m cs'') cs = true
              exact ih cs'' m h
            · rw [assocFind_assocSet_ne _ _ hcc, hfind]
              exact h

theorem searchChars_formTrie_mono : ∀ (ws : List String) (t : Node)
    (cs : List Char), searchChars t cs = true →
    searchChars (formTrie t ws) cs = true := by
  intro ws
  induction ws with
  | nil => intro t cs h; simpa [formTrie] using h
  | cons k rest ih =>
      intro t cs h
      show searchChars (formTrie (if k = "" then t
        else insert t ⟨pyStrip k.data⟩) rest) cs = true
      split_ifs with hk
      · exact ih t cs h
      · refine ih _ cs ?_
        unfold insert
        split_ifs with h2
        · exact h
        · exact searchChars_insertChars_mono cs _ t h

theorem searchChars_formTrie_hit : ∀ (ws : List String) (t : Node)
    (k : String), k ∈ ws → (⟨pyStrip k.data⟩ : String) ≠ "" →
    searchChars (formTrie t ws) ((pyStrip k.data).map Char.toLower) = true := by
  intro ws
  induction ws with
  | nil => intro t k hk; simp at hk
  | cons w rest ih =>
      intro t k hk hne
      rcases List.mem_cons.mp hk with rfl | hk
      · have hw : k ≠ "" := by
          intro h
          subst h
          exact hne rfl
        show searchChars (formTrie (if k = "" then t
          else insert t ⟨pyStrip k.data⟩) rest) _ = true
        rw [if_neg hw]
        refine searchChars_formTrie_mono rest _ _ ?_
        unfold insert
        rw [if_neg hne]
        exact searchChars_insertChars_self _ t
      · show searchChars (formTrie (if w = "" then t
          else insert t ⟨pyStrip w.data⟩) rest) _ = true
        split_ifs with hw
        · exact ih t k hk hne
        · exact ih _ k hk hne

end Trie

/-- **C1** (code_bug): the claim says `delete(key)` returns `true` whenever
`key` is present.  Failing input: the tree obtained by `insert("b")`,
`insert("a")`, then `delete("a")`.  The key `"a"` is present
(`search` finds it) and the deletion does remove it (the result's in-order
traversal is `["b"]`), yet `delete` returns `False`: the method reports
`self.root != old_root`, an *object identity* test, and deleting a
non-root key leaves the root object in place. -/
theorem c1_delete_present_key_returns_false :
    (AVL.insert ((AVL.insert .nil "b").1) "a").1
        = AVL.Tree.node (.node .nil ['a'] .nil 1) ['b'] .nil 2 ∧
    AVL.search (.node (.node .nil ['a'] .nil 1) ['b'] .nil 2) "a" = true ∧
    AVL.delete (.node (.node .nil ['a'] .nil 1) ['b'] .nil 2) "a"
        = (.node .nil ['b'] .nil 1, false) := by
  refine ⟨by decide, by decide, by decide⟩

/-- **C2** (code_bug): the claim says `insert(key)` returns `false` when the
key is already present.  Failing input: insert `"a"` twice.  The second
call is indeed a no-op on the tree — shape and in-order traversal are
unchanged — but it returns `True`, not `False`: `AVLTree.insert` returns
`True` on every validated call; the `self.root != old_root` test only
gates the file save.  (The empty-key clauses of the claim do hold, as the
last two conjuncts record.) -/
theorem c2_duplicate_insert_returns_true :
    AVL.insert ((AVL.insert .nil "a").1) "a"
        = ((AVL.insert .nil "a").1, true) ∧
    AVL.inorder (AVL.insert ((AVL.insert .nil "a").1) "a").1
        = AVL.inorder (AVL.insert .nil "a").1 ∧
    AVL.insert ((AVL.insert .nil "a").1) "" = ((AVL.insert .nil "a").1, false) ∧
    AVL.insert ((AVL.insert .nil "a").1) "   " = ((AVL.insert .nil "a").1, false) := by
  refine ⟨by decide, by decide, by decide, by decide⟩

/-- **C5** (confirmed): for every sequence of `insert`/`delete` calls
against the `AVLTree` API (started from the empty tree), the resulting
tree — and hence the tree after every intermediate operation, since every
prefix of the sequence is itself such a sequence — satisfies all three
claimed invariants: every node's stored height equals
`1 + max(height(left), height(right))`, every node's balance factor
(left height minus right height) lies in `{-1, 0, 1}`, and the in-order
traversal is strictly ascending (hence duplicate-free). -/
theorem c5_avl_insert_delete_invariants :
    ∀ ops : List AVL.Op,
      AVL.HeightsOk (AVL.runOps ops) ∧ AVL.BfOk (AVL.runOps ops) ∧
        (AVL.inorder (AVL.runOps ops)).Sorted (· < ·) := by
  have main : ∀ (ops : List AVL.Op) (t : AVL.Tree (List Char)),
      AVL.Avl t → AVL.Ord t →
      AVL.Avl (List.foldl AVL.applyOp t ops) ∧
        AVL.Ord (List.foldl AVL.applyOp t ops) := by
    intro ops
    induction ops with
    | nil => intro t h1 h2; exact ⟨h1, h2⟩
    | cons op rest ih =>
        intro t h1 h2
        rcases op with s | s
        · exact ih _ (AVL.insert_wf t s h1 h2).1 (AVL.insert_wf t s h1 h2).2
        · exact ih _ (AVL.delete_wf t s h1 h2).1 (AVL.delete_wf t s h1 h2).2
  intro ops
  obtain ⟨ha, ho⟩ := main ops .nil trivial trivial
  exact ⟨AVL.avl_heightsOk ha, AVL.avl_bfOk ha, AVL.Ord_sorted _ ho⟩

/-- **C3** (confirmed): for every trie built by insertions and every
prefix, `printAutoSuggestions` (trie.py:52-79) distinguishes exactly three
outcomes: `0` (= NOT_FOUND) iff the prefix is empty or its lowercased path
is absent from the trie; `-1` (= NO_COMPLETIONS) iff the prefix node
exists but has no child branches; and otherwise a non-empty list of at
most 20 completions — 20 being the collector's hard cap (trie.py:42) —
each equal to the lowercased prefix plus an accumulated path.  (On tries
reachable through `insert`, the DFS always collects at least one word
below a prefix node that has children, so the `0`-on-empty-collection
fallback in trie.py:79 never fires in the "otherwise" case.) -/
theorem c3_trie_suggest_trichotomy (ws : List String) (pfxS : String) :
    (Trie.printAutoSuggestions (Trie.formTrie (.mk [] false) ws) pfxS
        = .notFound ↔
      pfxS = "" ∨ Trie.walk (Trie.formTrie (.mk [] false) ws)
        (pfxS.data.map Char.toLower) = none) ∧
    (Trie.printAutoSuggestions (Trie.formTrie (.mk [] false) ws) pfxS
        = .noCompletions ↔
      pfxS ≠ "" ∧ ∃ n, Trie.walk (Trie.formTrie (.mk [] false) ws)
        (pfxS.data.map Char.toLower) = some n ∧
        (Trie.children n).isEmpty = true) ∧
    (∀ l, Trie.printAutoSuggestions (Trie.formTrie (.mk [] false) ws) pfxS
        = .results l →
      l ≠ [] ∧ l.length ≤ 20 ∧
        ∀ w ∈ l, ∃ p, w = pfxS.data.map Char.toLower ++ p) ∧
    ((∃ l, Trie.printAutoSuggestions (Trie.formTrie (.mk [] false) ws) pfxS
        = .results l) ↔
      pfxS ≠ "" ∧ ∃ n, Trie.walk (Trie.formTrie (.mk [] false) ws)
        (pfxS.data.map Char.toLower) = some n ∧
        (Trie.children n).isEmpty = false) := by
  by_cases hp : pfxS = ""
  · subst hp
    refine ⟨by simp [Trie.printAutoSuggestions], ?_, ?_, ?_⟩
    · simp [Trie.printAutoSuggestions]
    · intro l hl
      simp [Trie.printAutoSuggestions] at hl
    · constructor
      · rintro ⟨l, hl⟩
        simp [Trie.printAutoSuggestions] at hl
      · rintro ⟨h, -⟩
        exact absurd rfl h
  · have hlow : pfxS.data.map Char.toLower ≠ [] := by
      cases pfxS with | mk d =>
      simp only [ne_eq, List.map_eq_nil_iff]
      intro h
      subst h
      exact hp rfl
    rcases hwalk : Trie.walk (Trie.formTrie (.mk [] false) ws)
        (pfxS.data.map Char.toLower) with _ | n
    · refine ⟨?_, ?_, ?_, ?_⟩
      · simp [Trie.printAutoSuggestions, hp, hwalk]
      · simp [Trie.printAutoSuggestions, hp, hwalk]
      · intro l hl
        simp [Trie.printAutoSuggestions, hp, hwalk] at hl
      · constructor
        · rintro ⟨l, hl⟩
          simp [Trie.printAutoSuggestions, hp, hwalk] at hl
        · rintro ⟨-, n, hn, -⟩
          exact absurd hn (by simp)
    · have hgood : Trie.Good n :=
        Trie.walk_good _ _ (Trie.good_children_formTrie ws) hlow n hwalk
      by_cases hch : (Trie.children n).isEmpty
      · refine ⟨?_, ?_, ?_, ?_⟩
        · simp [Trie.printAutoSuggestions, hp, hwalk, hch]
        · simp only [Trie.printAutoSuggestions, if_neg hp, hwalk, if_pos hch]
          refine ⟨fun _ => ⟨hp, n, rfl, hch⟩, fun _ => by simp⟩
        · intro l hl
          simp [Trie.printAutoSuggestions, hp, hwalk, hch] at hl
        · constructor
          · rintro ⟨l, hl⟩
            simp [Trie.printAutoSuggestions, hp, hwalk, hch] at hl
          · rintro ⟨-, n', hn', hch'⟩
            obtain rfl : n = n' := by simpa using hn'
            rw [hch] at hch'
            exact absurd hch' (by simp)
      · have hne : Trie.suggRec n (pfxS.data.map Char.toLower) [] ≠ [] :=
          Trie.suggRec_good_ne (sizeOf n) n le_rfl hgood _ [] (by simp)
        refine ⟨?_, ?_, ?_, ?_⟩
        · simp [Trie.printAutoSuggestions, hp, hwalk, hch, hne]
        · simp only [Trie.printAutoSuggestions, if_neg hp, hwalk, if_neg hch,
            if_neg hne]
          constructor
          · intro h
            exact absurd h (by simp)
          · rintro ⟨-, n', hn', hch'⟩
            obtain rfl : n = n' := by simpa using hn'
            simp [hch'] at hch
        · intro l hl
          simp only [Trie.printAutoSuggestions, if_neg hp, hwalk, if_neg hch,
            if_neg hne] at hl
          obtain rfl : Trie.suggRec n (pfxS.data.map Char.toLower) [] = l := by
            simpa using hl
          refine ⟨hne, Trie.suggRec_cap n _ [] (by simp), ?_⟩
          intro w hw
          rcases Trie.suggRec_shape n _ [] w hw with h | h
          · simp at h
          · exact h
        · constructor
          · rintro ⟨l, -⟩
            exact ⟨hp, n, rfl, by simpa using hch⟩
          · rintro -
            exact ⟨Trie.suggRec n (pfxS.data.map Char.toLower) [],
              by simp [Trie.printAutoSuggestions, hp, hwalk, hch, hne]⟩

/-- Witness for C3: the spec's own example.  Inserting
`{"Avatar", "Avengers", "Batman"}` and suggesting on `"Av"` yields the two
expected completions, both extending the lowercased prefix. -/
theorem c3_trie_suggest_trichotomy_witness :
    ([['a','v','a','t','a','r'], ['a','v','e','n','g','e','r','s']]
        : List (List Char)) ≠ [] ∧
    ([['a','v','a','t','a','r'], ['a','v','e','n','g','e','r','s']]
        : List (List Char)).length ≤ 20 ∧
    ∀ w ∈ ([['a','v','a','t','a','r'], ['a','v','e','n','g','e','r','s']]
        : List (List Char)),
      ∃ p, w = "Av".data.map Char.toLower ++ p :=
  (c3_trie_suggest_trichotomy ["Avatar", "Avengers", "Batman"] "Av").2.2.1
    [['a','v','a','t','a','r'], ['a','v','e','n','g','e','r','s']]
    (by decide)

/-- **C10** (confirmed): words are stored lowercased, so (1) every string
in a suggestion result is fully lowercase — no character of it is an ASCII
capital letter, hence the original casing of an inserted title is never
returned — and (2) `search` accepts any case variant of an inserted word:
if some inserted key `k` (stripped, per `formTrie`) and a non-empty query
`v` agree after lowercasing, the search succeeds.  (`str.lower()` is
modelled by `Char.toLower`, i.e. ASCII case mapping.) -/
theorem c10_trie_lowercase (ws : List String) :
    (∀ (pfxS : String) (l : List (List Char)),
        Trie.printAutoSuggestions (Trie.formTrie (.mk [] false) ws) pfxS
          = .results l →
        ∀ x ∈ l, ∀ c ∈ x, c.toNat < 65 ∨ 90 < c.toNat) ∧
    (∀ k v : String, k ∈ ws → (⟨pyStrip k.data⟩ : String) ≠ "" → v ≠ "" →
        v.data.map Char.toLower = (pyStrip k.data).map Char.toLower →
        Trie.search (Trie.formTrie (.mk [] false) ws) v = true) := by
  constructor
  · intro pfxS l hl
    by_cases hp : pfxS = ""
    · subst hp
      simp [Trie.printAutoSuggestions] at hl
    rcases hwalk : Trie.walk (Trie.formTrie (.mk [] false) ws)
        (pfxS.data.map Char.toLower) with _ | n
    · simp [Trie.printAutoSuggestions, hp, hwalk] at hl
    by_cases hch : (Trie.children n).isEmpty
    · simp [Trie.printAutoSuggestions, hp, hwalk, hch] at hl
    by_cases hemp : Trie.suggRec n (pfxS.data.map Char.toLower) [] = []
    · simp [Trie.printAutoSuggestions, hp, hwalk, hch, hemp] at hl
    simp only [Trie.printAutoSuggestions, if_neg hp, hwalk, if_neg hch,
      if_neg hemp] at hl
    obtain rfl : Trie.suggRec n (pfxS.data.map Char.toLower) [] = l := by
      simpa using hl
    have hlown : Trie.LowEdges n :=
      Trie.walk_low _ _ (Trie.low_formTrie ws) n hwalk
    refine Trie.suggRec_low n _ [] hlown ?_ (by simp)
    intro c hc
    rcases List.mem_map.mp hc with ⟨c', -, rfl⟩
    exact Trie.toLower_not_upper c'
  · intro k v hk hne hv hveq
    unfold Trie.search
    rw [if_neg hv, hveq]
    exact Trie.searchChars_formTrie_hit ws _ k hk hne

/-- Witness for C10: in the trie built from `["Avatar"]`, the suggestions
for `"Av"` are fully lowercase (the original `"Avatar"` casing is not
returned), and `search "aVaTAR"` — a case variant of the inserted word —
succeeds. -/
theorem c10_trie_lowercase_witness :
    (∀ x ∈ ([['a','v','a','t','a','r']] : List (List Char)),
        ∀ c ∈ x, c.toNat < 65 ∨ 90 < c.toNat) ∧
    Trie.search (Trie.formTrie (.mk [] false) ["Avatar"]) "aVaTAR" = true :=
  ⟨(c10_trie_lowercase ["Avatar"]).1 "Av" [['a','v','a','t','a','r']]
      (by decide),
    (c10_trie_lowercase ["Avatar"]).2 "Avatar" "aVaTAR" (by decide) (by decide)
      (by decide) (by decide)⟩

namespace RateL

theorem filter_filter_window (l : List ℤ) (now w : ℤ) :
    (l.filter (fun r => now - r < w)).filter (fun r => now - r < w)
      = l.filter (fun r => now - r < w) := by
  rw [List.filter_filter]
  simp

/-- Deny path of `is_allowed`: with the pruned count at or above the
limit, the call is denied with `remaining = 0` and `reset = now + window`,
and only the pruned timestamps are kept (the request is not recorded). -/
theorem is_allowed_deny (rl : Limiter) (ip : String) (now : ℤ)
    (h : rl.requests ≤
      ((rl.clients ip).filter (fun r => now - r < rl.window)).length) :
    (is_allowed rl ip now).2 = ⟨false, 0, now + rl.window, rl.requests⟩ ∧
    (is_allowed rl ip now).1.clients ip
      = (rl.clients ip).filter (fun r => now - r < rl.window) ∧
    (is_allowed rl ip now).1.requests = rl.requests ∧
    (is_allowed rl ip now).1.window = rl.window := by
  simp only [is_allowed]
  by_cases hcln : now - rl.last_cleanup > rl.cleanup_interval
  · rw [if_pos hcln]
    simp only [cleanupOld, filter_filter_window]
    rw [if_pos (by simpa using h)]
    refine ⟨rfl, ?_, rfl, rfl⟩
    simp [Function.update_same]
  · rw [if_neg hcln]
    rw [if_pos (by simpa using h)]
    refine ⟨rfl, ?_, rfl, rfl⟩
    simp [Function.update_same]

/-- Allow path of `is_allowed`: below the limit the call is allowed,
`remaining = requests - count - 1`, `reset = now + window`, and the
pruned timestamps plus `now` are stored. -/
theorem is_allowed_allow (rl : Limiter) (ip : String) (now : ℤ)
    (h : ((rl.clients ip).filter (fun r => now - r < rl.window)).length
      < rl.requests) :
    (is_allowed rl ip now).2 = ⟨true, (rl.requests : ℤ) -
        ((rl.clients ip).filter (fun r => now - r < rl.window)).length - 1,
      now + rl.window, rl.requests⟩ ∧
    (is_allowed rl ip now).1.clients ip
      = (rl.clients ip).filter (fun r => now - r < rl.window) ++ [now] ∧
    (is_allowed rl ip now).1.requests = rl.requests ∧
    (is_allowed rl ip now).1.window = rl.window := by
  simp only [is_allowed]
  by_cases hcln : now - rl.last_cleanup > rl.cleanup_interval
  · rw [if_pos hcln]
    simp only [cleanupOld, filter_filter_window]
    rw [if_neg (by simpa using Nat.not_le.mpr h)]
    refine ⟨?_, ?_, rfl, rfl⟩
    · rw [RateInfo.mk.injEq]
      refine ⟨rfl, by omega, rfl, rfl⟩
    · simp [Function.update_same]
  · rw [if_neg hcln]
    rw [if_neg (by simpa using Nat.not_le.mpr h)]
    refine ⟨?_, ?_, rfl, rfl⟩
    · rw [RateInfo.mk.injEq]
      refine ⟨rfl, by omega, rfl, rfl⟩
    · simp [Function.update_same]

end RateL

namespace RateL

theorem filter_all (l : List ℤ) (now w : ℤ) (h : ∀ a ∈ l, now - a < w) :
    l.filter (fun r => now - r < w) = l :=
  List.filter_eq_self.mpr (fun a ha => by simpa using h a ha)

theorem filter_none (l : List ℤ) (now w : ℤ) (h : ∀ a ∈ l, ¬(now - a < w)) :
    l.filter (fun r => now - r < w) = [] := by
  induction l with
  | nil => rfl
  | cons a l ih =>
      rw [List.filter_cons, if_neg (by simpa using h a (List.mem_cons_self _ _))]
      exact ih (fun b hb => h b (List.mem_cons_of_mem _ hb))

end RateL

/-- **C7** (confirmed): `SlidingWindowRateLimiter.is_allowed`
(main.py:176-217).  Part 1: when the client's timestamps pruned to the
trailing window already number at least `limit`, the call is denied with
`remaining = 0`, `reset = now + window`, and nothing recorded.  Part 2:
otherwise the call is allowed with `remaining = limit - count - 1` and the
current instant recorded after the pruned timestamps.  Part 3: with
`limit = 3, window = 60`, four calls inside one window give
allow(2), allow(1), allow(0), deny(0), and a fifth call after the window
has fully elapsed is allowed again with `remaining = limit - 1 = 2`. -/
theorem c7_rate_limiter :
    (∀ (rl : RateL.Limiter) (ip : String) (now : ℤ),
        rl.requests ≤
          ((rl.clients ip).filter (fun r => now - r < rl.window)).length →
        (RateL.is_allowed rl ip now).2 = ⟨false, 0, now + rl.window, rl.requests⟩ ∧
        (RateL.is_allowed rl ip now).1.clients ip
          = (rl.clients ip).filter (fun r => now - r < rl.window)) ∧
    (∀ (rl : RateL.Limiter) (ip : String) (now : ℤ),
        ((rl.clients ip).filter (fun r => now - r < rl.window)).length
          < rl.requests →
        (RateL.is_allowed rl ip now).2 = ⟨true, (rl.requests : ℤ) -
            ((rl.clients ip).filter (fun r => now - r < rl.window)).length - 1,
          now + rl.window, rl.requests⟩ ∧
        (RateL.is_allowed rl ip now).1.clients ip
          = (rl.clients ip).filter (fun r => now - r < rl.window) ++ [now]) ∧
    (∀ (ip : String) (t0 t1 t2 t3 t4 t5 : ℤ),
        t1 ≤ t2 → t2 ≤ t3 → t3 ≤ t4 → t4 ≤ t5 → t4 - t1 < 60 → 60 ≤ t5 - t4 →
        RateL.fourCallScenario t0 t1 t2 t3 t4 t5 ip =
          (⟨true, 2, t1 + 60, 3⟩, ⟨true, 1, t2 + 60, 3⟩, ⟨true, 0, t3 + 60, 3⟩,
            ⟨false, 0, t4 + 60, 3⟩, ⟨true, 2, t5 + 60, 3⟩)) := by
  refine ⟨?_, ?_, ?_⟩
  · intro rl ip now h
    exact ⟨(RateL.is_allowed_deny rl ip now h).1,
      (RateL.is_allowed_deny rl ip now h).2.1⟩
  · intro rl ip now h
    exact ⟨(RateL.is_allowed_allow rl ip now h).1,
      (RateL.is_allowed_allow rl ip now h).2.1⟩
  · intro ip t0 t1 t2 t3 t4 t5 h12 h23 h34 h45 hwin h5
    obtain ⟨i1, c1, r1, w1⟩ := RateL.is_allowed_allow (RateL.mkLimiter 3 60 t0)
      ip t1 (by simp [RateL.mkLimiter])
    set s1 := (RateL.is_allowed (RateL.mkLimiter 3 60 t0) ip t1).1 with hs1
    simp only [RateL.mkLimiter, List.filter_nil, List.nil_append] at i1 c1 r1 w1
    have e2 : ([t1] : List ℤ).filter (fun r => t2 - r < 60) = [t1] :=
      RateL.filter_all _ _ _ (by intro a ha; simp at ha; omega)
    obtain ⟨i2, c2, r2, w2⟩ := RateL.is_allowed_allow s1 ip t2
      (by rw [w1, c1, e2, r1]; norm_num)
    set s2 := (RateL.is_allowed s1 ip t2).1 with hs2
    simp only [w1, r1, c1, e2, List.singleton_append] at i2 c2 r2 w2
    have e3 : ([t1, t2] : List ℤ).filter (fun r => t3 - r < 60) = [t1, t2] :=
      RateL.filter_all _ _ _
        (by intro a ha; simp at ha; rcases ha with rfl | rfl <;> omega)
    obtain ⟨i3, c3, r3, w3⟩ := RateL.is_allowed_allow s2 ip t3
      (by rw [w2, c2, e3, r2]; norm_num)
    set s3 := (RateL.is_allowed s2 ip t3).1 with hs3
    simp only [w2, r2, c2, e3, List.cons_append, List.singleton_append,
      List.nil_append] at i3 c3 r3 w3
    have e4 : ([t1, t2, t3] : List ℤ).filter (fun r => t4 - r < 60)
        = [t1, t2, t3] :=
      RateL.filter_all _ _ _
        (by intro a ha; simp at ha; rcases ha with rfl | rfl | rfl <;> omega)
    obtain ⟨i4, c4, r4, w4⟩ := RateL.is_allowed_deny s3 ip t4
      (by rw [w3, c3, e4, r3]; norm_num)
    set s4 := (RateL.is_allowed s3 ip t4).1 with hs4
    simp only [w3, r3, c3, e4, List.cons_append, List.singleton_append,
      List.nil_append] at i4 c4 r4 w4
    have e5 : ([t1, t2, t3] : List ℤ).filter (fun r => t5 - r < 60) = [] :=
      RateL.filter_none _ _ _
        (by intro a ha; simp at ha; rcases ha with rfl | rfl | rfl <;> omega)
    obtain ⟨i5, c5, r5, w5⟩ := RateL.is_allowed_allow s4 ip t5
      (by rw [w4, c4, e5, r4]; norm_num)
    simp only [w4, r4, c4, e5, List.cons_append, List.singleton_append,
      List.nil_append] at i5 c5 r5 w5
    show (_, _, _, _, _) = _
    rw [Prod.mk.injEq, Prod.mk.injEq, Prod.mk.injEq, Prod.mk.injEq]
    refine ⟨?_, ?_, ?_, ?_, ?_⟩
    · show (RateL.is_allowed (RateL.mkLimiter 3 60 t0) ip t1).2 = _
      simp only [RateL.mkLimiter]
      rw [i1]; norm_num
    · rw [i2]; norm_num
    · rw [i3]; norm_num
    · rw [i4]
    · rw [i5]; norm_num

/-- Witness for C7: concrete instants 1, 2, 3, 4 in one minute and a fifth
call at 70. -/
theorem c7_rate_limiter_witness :
    RateL.fourCallScenario 0 1 2 3 4 70 "client" =
      (⟨true, 2, 1 + 60, 3⟩, ⟨true, 1, 2 + 60, 3⟩, ⟨true, 0, 3 + 60, 3⟩,
        ⟨false, 0, 4 + 60, 3⟩, ⟨true, 2, 70 + 60, 3⟩) :=
  c7_rate_limiter.2.2 "client" 0 1 2 3 4 70 (by decide) (by decide) (by decide)
    (by decide) (by decide) (by decide)

namespace Cache

variable {V : Type}

theorem setA_length_le {β : Type} (l : List (String × β)) (k : String) (v : β) :
    (setA l k v).length ≤ l.length + 1 := by
  induction l with
  | nil => simp [setA]
  | cons q rest ih =>
      obtain ⟨k', v'⟩ := q
      simp only [setA]
      split_ifs with h
      · simp
      · simpa using ih

theorem mem_setA {β : Type} {l : List (String × β)} {k : String} {v : β} :
    ∀ p ∈ setA l k v, p ∈ l ∨ p = (k, v) := by
  induction l with
  | nil => intro p hp; simp [setA] at hp; simp [hp]
  | cons q rest ih =>
      intro p hp
      obtain ⟨k', v'⟩ := q
      simp only [setA] at hp
      split_ifs at hp with h
      · rcases List.mem_cons.mp hp with rfl | hp
        · exact Or.inr rfl
        · exact Or.inl (List.mem_cons_of_mem _ hp)
      · rcases List.mem_cons.mp hp with rfl | hp
        · exact Or.inl (List.mem_cons_self _ _)
        · rcases ih p hp with h' | h'
          · exact Or.inl (List.mem_cons_of_mem _ h')
          · exact Or.inr h'

theorem map_fst_filter {β : Type} (pr : String × β → Bool) (q : String → Bool)
    (hq : ∀ p, pr p = q p.1) (l : List (String × β)) :
    (l.filter pr).map Prod.fst = (l.map Prod.fst).filter q := by
  induction l with
  | nil => rfl
  | cons p rest ih =>
      simp only [List.filter_cons, List.map_cons, hq]
      rcases h : q p.1 with - | -
      · simpa [h] using ih
      · simpa [h] using ih

theorem filter_ne_key_length {β : Type} :
    ∀ (l : List (String × β)) (k : String),
    (l.map Prod.fst).Nodup → k ∈ l.map Prod.fst →
    (l.filter (fun p => p.1 ≠ k)).length + 1 = l.length := by
  intro l
  induction l with
  | nil => intro k _ hk; simp at hk
  | cons p rest ih =>
      intro k hnod hk
      simp only [List.map_cons, List.nodup_cons] at hnod
      simp only [List.map_cons, List.mem_cons] at hk
      simp only [List.filter_cons]
      rcases hk with hk | hk
      · rw [if_neg (by simp [hk])]
        have hthis : ∀ a ∈ rest, a.1 ∈ List.map Prod.fst rest :=
          fun a ha => List.mem_map_of_mem Prod.fst ha
        have hrest : rest.filter (fun p => p.1 ≠ k) = rest := by
          rw [List.filter_eq_self]
          intro a ha
          simp only [ne_eq, decide_eq_true_eq]
          intro hc
          apply hnod.1
          rw [← hk, ← hc]
          exact hthis a ha
        rw [hrest]
        simp
      · have hpk : ¬ p.1 = k := by
          intro hcontra
          exact hnod.1 (hcontra ▸ hk)
        rw [if_pos (by simpa using hpk)]
        simpa using ih k hnod.2 hk

theorem filter_cons_key {β : Type} (l : List (String × β)) (k : String)
    (ks : List String) :
    l.filter (fun p => p.1 ∉ k :: ks)
      = (l.filter (fun p => p.1 ≠ k)).filter (fun p => p.1 ∉ ks) := by
  rw [List.filter_filter]
  apply List.filter_congr
  intro p _
  cases h1 : decide (p.1 ∉ ks) <;> cases h2 : decide (p.1 = k) <;>
    simp_all [List.mem_cons]

theorem filter_not_mem_length {β : Type} :
    ∀ (ks : List String) (l : List (String × β)),
    ks.Nodup → (l.map Prod.fst).Nodup → (∀ x ∈ ks, x ∈ l.map Prod.fst) →
    (l.filter (fun p => p.1 ∉ ks)).length + ks.length = l.length := by
  intro ks
  induction ks with
  | nil =>
      intro l _ _ _
      have h : l.filter (fun p => p.1 ∉ ([] : List String)) = l := by
        rw [List.filter_eq_self]; intro a _; simp
      simp [h]
  | cons k ks ih =>
      intro l hks hnod hmem
      simp only [List.nodup_cons] at hks
      rw [filter_cons_key]
      have h1 := filter_ne_key_length l k hnod (hmem k (List.mem_cons_self _ _))
      have hmf := map_fst_filter (fun p => decide (p.1 ≠ k))
        (fun s => decide (s ≠ k)) (fun _ => rfl) l
      have hnod1 : ((l.filter (fun p => p.1 ≠ k)).map Prod.fst).Nodup := by
        rw [hmf]
        exact List.Nodup.filter _ hnod
      have hmem1 : ∀ x ∈ ks, x ∈ (l.filter (fun p => p.1 ≠ k)).map Prod.fst := by
        intro x hx
        rw [hmf, List.mem_filter]
        refine ⟨hmem x (List.mem_cons_of_mem _ hx), ?_⟩
        simp only [ne_eq, decide_eq_true_eq]
        intro hcontra
        exact hks.1 (hcontra ▸ hx)
      have h2 := ih (l.filter (fun p => p.1 ≠ k)) hks.2 hnod1 hmem1
      simp only [List.length_cons]
      omega

theorem insSorted_perm (p : String × ℤ) :
    ∀ l : List (String × ℤ), List.Perm (insSorted p l) (p :: l) := by
  intro l
  induction l with
  | nil => simp [insSorted]
  | cons q rest ih =>
      simp only [insSorted]
      split_ifs with h
      · exact (ih.cons q).trans (List.Perm.swap p q rest)
      · exact List.Perm.refl _

theorem sortByAccess_perm :
    ∀ l : List (String × ℤ), List.Perm (sortByAccess l) l := by
  intro l
  induction l with
  | nil => simp [sortByAccess]
  | cons p rest ih => exact (insSorted_perm p _).trans (ih.cons p)

theorem insSorted_sorted (p : String × ℤ) (l : List (String × ℤ))
    (h : l.Sorted (fun a b => a.2 ≤ b.2)) :
    (insSorted p l).Sorted (fun a b => a.2 ≤ b.2) := by
  induction l with
  | nil => simp [insSorted]
  | cons q rest ih =>
      rw [List.sorted_cons] at h
      simp only [insSorted]
      split_ifs with hle
      · rw [List.sorted_cons]
        refine ⟨?_, ih h.2⟩
        intro b hb
        rcases List.mem_cons.mp ((insSorted_perm p rest).mem_iff.mp hb)
          with rfl | hb
        · exact hle
        · exact h.1 b hb
      · rw [List.sorted_cons]
        refine ⟨?_, List.sorted_cons.mpr h⟩
        intro b hb
        rcases List.mem_cons.mp hb with rfl | hb
        · omega
        · have := h.1 b hb
          omega

theorem sortByAccess_sorted :
    ∀ l : List (String × ℤ), (sortByAccess l).Sorted (fun a b => a.2 ≤ b.2) := by
  intro l
  induction l with
  | nil => simp [sortByAccess]
  | cons p rest ih => exact insSorted_sorted p _ ih

theorem sorted_take_drop {l : List (String × ℤ)}
    (h : l.Sorted (fun a b => a.2 ≤ b.2)) (n : ℕ) :
    ∀ p ∈ l.take n, ∀ q ∈ l.drop n, p.2 ≤ q.2 := by
  have h2 : (l.take n ++ l.drop n).Pairwise (fun a b => a.2 ≤ b.2) := by
    rw [List.take_append_drop]
    exact h
  exact (List.pairwise_append.mp h2).2.2

end Cache

/-- **C9** (confirmed): `AdvancedCache.set` (main.py:96-106) first sweeps
every entry whose age is at least the TTL, then — if the store still holds
at least `max_size` entries — evicts exactly `max(1, max_size // 5)`
entries, namely the block with the oldest last-access stamps in the
access-time ordering; consequently, starting from a consistent cache
within capacity, the cache size never exceeds `max_size` after a `set`,
and every surviving entry (the fresh one included) is younger than the
TTL. -/
theorem c9_cache_set (V : Type) (c : Cache.CacheState V) (key : String)
    (value : V) (now : ℤ)
    (hsync : c.cache.map Prod.fst = c.access_times.map Prod.fst)
    (hnod : (c.cache.map Prod.fst).Nodup)
    (hsize : c.cache.length ≤ c.max_size)
    (hpos : 1 ≤ c.max_size)
    (httl : 0 < c.ttl) :
    (Cache.set c key value now).cache.length ≤ c.max_size ∧
    (∀ p ∈ (Cache.set c key value now).cache, now - p.2.2 < c.ttl) ∧
    (Cache.set c key value now).evictions = c.evictions +
      (if c.max_size ≤ (Cache.cleanup_expired c now).cache.length
        then max 1 (c.max_size / 5) else 0) ∧
    (∀ p ∈ (Cache.sortByAccess
        (Cache.cleanup_expired c now).access_times).take
          (max 1 (c.max_size / 5)),
      ∀ q ∈ (Cache.sortByAccess
        (Cache.cleanup_expired c now).access_times).drop
          (max 1 (c.max_size / 5)),
      p.2 ≤ q.2) := by
  have hms1 : (Cache.cleanup_expired c now).max_size = c.max_size := rfl
  have httl1 : (Cache.cleanup_expired c now).ttl = c.ttl := rfl
  have hev1 : (Cache.cleanup_expired c now).evictions = c.evictions := rfl
  have hcache1 : (Cache.cleanup_expired c now).cache
      = c.cache.filter (fun p => p.1 ∉
        ((c.cache.filter (fun p => now - p.2.2 ≥ c.ttl)).map (·.1))) := rfl
  have hacc1 : (Cache.cleanup_expired c now).access_times
      = c.access_times.filter (fun p => p.1 ∉
        ((c.cache.filter (fun p => now - p.2.2 ≥ c.ttl)).map (·.1))) := rfl
  have hlen1 : (Cache.cleanup_expired c now).cache.length ≤ c.cache.length := by
    rw [hcache1]
    exact List.length_filter_le _ _
  have hfresh1 : ∀ p ∈ (Cache.cleanup_expired c now).cache,
      now - p.2.2 < c.ttl := by
    intro p hp
    rw [hcache1] at hp
    obtain ⟨hpc, hpk⟩ := List.mem_filter.mp hp
    by_contra hcon
    have hexp : p ∈ c.cache.filter (fun p => now - p.2.2 ≥ c.ttl) :=
      List.mem_filter.mpr ⟨hpc, by simpa using le_of_not_lt hcon⟩
    have : p.1 ∈ (c.cache.filter (fun p => now - p.2.2 ≥ c.ttl)).map (·.1) :=
      List.mem_map_of_mem _ hexp
    simp only [decide_eq_true_eq] at hpk
    exact hpk this
  have hsync1 : (Cache.cleanup_expired c now).cache.map Prod.fst
      = (Cache.cleanup_expired c now).access_times.map Prod.fst := by
    rw [hcache1, hacc1,
      Cache.map_fst_filter _ (fun s => decide (s ∉
        ((c.cache.filter (fun p => now - p.2.2 ≥ c.ttl)).map (·.1))))
        (fun _ => rfl),
      Cache.map_fst_filter _ (fun s => decide (s ∉
        ((c.cache.filter (fun p => now - p.2.2 ≥ c.ttl)).map (·.1))))
        (fun _ => rfl),
      hsync]
  have hnod1 : ((Cache.cleanup_expired c now).cache.map Prod.fst).Nodup := by
    rw [hcache1,
      Cache.map_fst_filter _ (fun s => decide (s ∉
        ((c.cache.filter (fun p => now - p.2.2 ≥ c.ttl)).map (·.1))))
        (fun _ => rfl)]
    exact List.Nodup.filter _ hnod
  have hacclen : (Cache.cleanup_expired c now).access_times.length
      = (Cache.cleanup_expired c now).cache.length := by
    have h := congrArg List.length hsync1
    simp only [List.length_map] at h
    omega
  have hslen : (Cache.sortByAccess
      (Cache.cleanup_expired c now).access_times).length
      = (Cache.cleanup_expired c now).access_times.length :=
    (Cache.sortByAccess_perm _).length_eq
  have hlast : ∀ p ∈ (Cache.sortByAccess
      (Cache.cleanup_expired c now).access_times).take
        (max 1 (c.max_size / 5)),
      ∀ q ∈ (Cache.sortByAccess
        (Cache.cleanup_expired c now).access_times).drop
          (max 1 (c.max_size / 5)),
      p.2 ≤ q.2 :=
    Cache.sorted_take_drop (Cache.sortByAccess_sorted _) _
  refine ⟨?_, ?_, ?_, hlast⟩
  · -- size bound
    simp only [Cache.set]
    by_cases hful : (Cache.cleanup_expired c now).cache.length
        ≥ (Cache.cleanup_expired c now).max_size
    · rw [if_pos hful]
      rw [hms1] at hful
      have haccne : (Cache.cleanup_expired c now).access_times ≠ [] := by
        intro hcon
        rw [hcon] at hacclen
        simp only [List.length_nil] at hacclen
        omega
      simp only [Cache.evict_lru, if_neg haccne]
      set vict := (Cache.sortByAccess
        (Cache.cleanup_expired c now).access_times).take
          (max 1 ((Cache.cleanup_expired c now).max_size / 5)) with hvict
      have hvlen : vict.length
          = max 1 ((Cache.cleanup_expired c now).max_size / 5) := by
        rw [hvict, List.length_take, hslen, hacclen, hms1]
        omega
      have hsortnod : ((Cache.sortByAccess
          (Cache.cleanup_expired c now).access_times).map Prod.fst).Nodup := by
        refine (List.Perm.nodup_iff ?_).mpr (hsync1 ▸ hnod1)
        exact (Cache.sortByAccess_perm _).map Prod.fst
      have hvnod : (vict.map Prod.fst).Nodup := by
        rw [hvict, List.map_take]
        exact List.Nodup.sublist (List.take_sublist _ _) hsortnod
      have hvmem : ∀ x ∈ vict.map Prod.fst,
          x ∈ (Cache.cleanup_expired c now).cache.map Prod.fst := by
        intro x hx
        rcases List.mem_map.mp hx with ⟨p, hp, rfl⟩
        have hp2 : p ∈ Cache.sortByAccess
            (Cache.cleanup_expired c now).access_times :=
          List.take_subset _ _ (hvict ▸ hp)
        have hp3 : p ∈ (Cache.cleanup_expired c now).access_times :=
          (Cache.sortByAccess_perm _).subset hp2
        rw [hsync1]
        exact List.mem_map_of_mem Prod.fst hp3
      have hcount := Cache.filter_not_mem_length (vict.map Prod.fst)
        (Cache.cleanup_expired c now).cache hvnod hnod1 hvmem
      have hsetlen := Cache.setA_length_le
        ((Cache.cleanup_expired c now).cache.filter
          (fun p => p.1 ∉ vict.map Prod.fst)) key (value, now)
      show (Cache.setA ((Cache.cleanup_expired c now).cache.filter
          (fun p => p.1 ∉ vict.map Prod.fst)) key (value, now)).length ≤ c.max_size
      simp only [List.length_map] at hcount
      rw [hvlen, hms1] at hcount
      omega
    · rw [if_neg hful]
      rw [hms1] at hful
      have hsetlen := Cache.setA_length_le
        (Cache.cleanup_expired c now).cache key (value, now)
      show (Cache.setA (Cache.cleanup_expired c now).cache key
        (value, now)).length ≤ c.max_size
      omega
  · -- freshness of every stored entry
    simp only [Cache.set]
    by_cases hful : (Cache.cleanup_expired c now).cache.length
        ≥ (Cache.cleanup_expired c now).max_size
    · rw [if_pos hful]
      rw [hms1] at hful
      have haccne : (Cache.cleanup_expired c now).access_times ≠ [] := by
        intro hcon
        rw [hcon] at hacclen
        simp only [List.length_nil] at hacclen
        omega
      simp only [Cache.evict_lru, if_neg haccne]
      intro p hp
      rcases Cache.mem_setA p hp with h | h
      · exact hfresh1 p (List.mem_filter.mp h).1
      · subst h
        simpa using httl
    · rw [if_neg hful]
      intro p hp
      rcases Cache.mem_setA p hp with h | h
      · exact hfresh1 p h
      · subst h
        simpa using httl
  · -- eviction count
    simp only [Cache.set]
    by_cases hful : (Cache.cleanup_expired c now).cache.length
        ≥ (Cache.cleanup_expired c now).max_size
    · rw [if_pos hful]
      have hful2 : c.max_size ≤ (Cache.cleanup_expired c now).cache.length := by
        rw [← hms1]
        exact hful
      have haccne : (Cache.cleanup_expired c now).access_times ≠ [] := by
        intro hcon
        rw [hcon] at hacclen
        simp only [List.length_nil] at hacclen
        omega
      simp only [Cache.evict_lru, if_neg haccne]
      rw [if_pos hful2]
      show (Cache.cleanup_expired c now).evictions +
          ((Cache.sortByAccess (Cache.cleanup_expired c now).access_times).take
            (max 1 ((Cache.cleanup_expired c now).max_size / 5))).length
          = c.evictions + max 1 (c.max_size / 5)
      rw [hev1, List.length_take, hslen, hacclen, hms1]
      congr 1
      omega
    · rw [if_neg hful]
      have hful2 : ¬ c.max_size ≤ (Cache.cleanup_expired c now).cache.length := by
        rw [← hms1]
        exact hful
      rw [if_neg hful2]
      show (Cache.cleanup_expired c now).evictions = c.evictions + 0
      rw [hev1]
      omega

/-- Witness for C9: a two-entry cache at capacity 2; `set` sweeps nothing
(both entries are fresh), evicts the single oldest-accessed entry `"a"`,
inserts the new key, and ends at size 2 = `max_size`. -/
theorem c9_cache_set_witness :
    (Cache.set (⟨[("a", 1, 0), ("b", 2, 5)], [("a", 0), ("b", 5)],
        2, 100, 0, 0, 0⟩ : Cache.CacheState ℕ) "c" 3 10).cache.length ≤ 2 ∧
    (∀ p ∈ (Cache.set (⟨[("a", 1, 0), ("b", 2, 5)], [("a", 0), ("b", 5)],
        2, 100, 0, 0, 0⟩ : Cache.CacheState ℕ) "c" 3 10).cache,
      (10 : ℤ) - p.2.2 < 100) ∧
    (Cache.set (⟨[("a", 1, 0), ("b", 2, 5)], [("a", 0), ("b", 5)],
        2, 100, 0, 0, 0⟩ : Cache.CacheState ℕ) "c" 3 10).evictions = 0 +
      (if 2 ≤ (Cache.cleanup_expired (⟨[("a", 1, 0), ("b", 2, 5)],
          [("a", 0), ("b", 5)], 2, 100, 0, 0, 0⟩ : Cache.CacheState ℕ)
          10).cache.length then max 1 (2 / 5) else 0) ∧
    (∀ p ∈ (Cache.sortByAccess (Cache.cleanup_expired
        (⟨[("a", 1, 0), ("b", 2, 5)], [("a", 0), ("b", 5)],
          2, 100, 0, 0, 0⟩ : Cache.CacheState ℕ) 10).access_times).take
            (max 1 (2 / 5)),
      ∀ q ∈ (Cache.sortByAccess (Cache.cleanup_expired
        (⟨[("a", 1, 0), ("b", 2, 5)], [("a", 0), ("b", 5)],
          2, 100, 0, 0, 0⟩ : Cache.CacheState ℕ) 10).access_times).drop
            (max 1 (2 / 5)),
      p.2 ≤ q.2) :=
  c9_cache_set ℕ ⟨[("a", 1, 0), ("b", 2, 5)], [("a", 0), ("b", 5)],
      2, 100, 0, 0, 0⟩ "c" 3 10 (by decide) (by decide) (by decide) (by decide)
    (by decide)

namespace Search

theorem gFilter_eq {β : Type} (tr : β → Bool) (pred : β → Row → Bool)
    (v : Option β) (df : List Row) :
    gFilter tr pred v df = df.filter (gPred tr pred v) := by
  cases v with
  | none =>
      simp only [gFilter]
      exact ((List.filter_congr fun r _ => by simp [gPred]).trans
        (List.filter_true df)).symm
  | some b =>
      by_cases h : tr b = true
      · simp only [gFilter, if_pos h]
        exact List.filter_congr fun r _ => by simp [gPred, h]
      · simp only [gFilter, if_neg h]
        exact ((List.filter_congr fun r _ => by simp [gPred, h]).trans
          (List.filter_true df)).symm

theorem insertLe_perm {β : Type} (le : β → β → Bool) (x : β) :
    ∀ l : List β, List.Perm (insertLe le x l) (x :: l) := by
  intro l
  induction l with
  | nil => simp [insertLe]
  | cons y ys ih =>
      simp only [insertLe]
      split_ifs with h
      · exact List.Perm.refl _
      · exact (ih.cons y).trans (List.Perm.swap x y ys)

theorem sortLe_perm {β : Type} (le : β → β → Bool) :
    ∀ l : List β, List.Perm (sortLe le l) l := by
  intro l
  induction l with
  | nil => simp [sortLe]
  | cons x xs ih =>
      simp only [sortLe]
      exact (insertLe_perm le x _).trans (ih.cons x)

theorem sortStage_perm (a : SearchArgs) (df : List Row) :
    List.Perm (sortStage a df) df := by
  simp only [sortStage]
  split_ifs <;> first
    | exact sortLe_perm _ _
    | exact List.Perm.refl _

end Search

/-- **C4** (corrected): the claim says each supplied filter acts as an
independent AND predicate "including when a supplied numeric filter value
is 0", but the code guards every filter with Python truthiness
(`if year:`, `if min_rating:`, ... — main.py:804-831), so a supplied
`year=0`, `min_rating=0.0`, `max_rating=0.0` or empty-string filter is
silently skipped.  Amended statement: the filter stage equals a single
`filter` by the conjunction of the guards as the code enforces them — a
supplied-and-truthy argument filters, a missing or falsy one passes every
row. -/
theorem c4_filter_stage (a : Search.SearchArgs) (df : List Search.Row) :
    Search.applyFilters a df = df.filter (Search.truthyPred a) := by
  simp only [Search.applyFilters, Search.gFilter_eq, List.filter_filter]
  refine List.filter_congr ?_
  intro r _
  simp only [Search.truthyPred]
  simp [Bool.and_comm, Bool.and_left_comm, Bool.and_assoc]

/-- Counterexample for C4 as stated: with `year = 0` supplied, the code
keeps a row whose `title_year` is 1990, while the claim's
independent-AND reading (`claimPred`) drops it. -/
theorem c4_filter_stage_counterexample :
    Search.applyFilters
        ⟨[], 10, 0, none, some 0, none, none, none, none,
          "rating".data, "desc".data⟩
        [⟨some ("Old Movie").data, none, none, none, some 1990, some 5,
          none, none, none, none, none⟩]
      ≠ List.filter
        (Search.claimPred
          ⟨[], 10, 0, none, some 0, none, none, none, none,
            "rating".data, "desc".data⟩)
        [⟨some ("Old Movie").data, none, none, none, some 1990, some 5,
          none, none, none, none, none⟩] := by
  decide

/-- **C8** (corrected): `totalCount` is the size of the filtered set
before pagination (the sort stage only permutes it) and an out-of-range
request never errors, but the returned page is NOT always the full
clamped slice `[offset, offset+limit)`: the `MovieModel` conversion loop
(main.py:857-866) silently drops any slice row whose validation fails
(`except ... continue`), while `total_count` still counts it.  Amended
statement: the page length is at most `min limit (total - offset)` (so an
offset at or beyond the total still yields an empty page), and every page
row comes from the filtered set and passes the model validation. -/
theorem c8_pagination (df : List Search.Row) (a : Search.SearchArgs) :
    (Search.search_movies_in_df df a).2
        = (Search.applyFilters a (Search.queryStage a df)).length ∧
    (Search.search_movies_in_df df a).1.length
        ≤ min a.limit ((Search.search_movies_in_df df a).2 - a.offset) ∧
    ∀ r ∈ (Search.search_movies_in_df df a).1,
      r ∈ Search.applyFilters a (Search.queryStage a df) ∧
        Search.rowOk r = true := by
  refine ⟨?_, ?_, ?_⟩
  · show (Search.sortStage a
        (Search.applyFilters a (Search.queryStage a df))).length = _
    exact (Search.sortStage_perm a _).length_eq
  · have h1 := List.length_filter_le Search.rowOk
      (((Search.sortStage a (Search.applyFilters a
        (Search.queryStage a df))).drop a.offset).take a.limit)
    have h2 : (((Search.sortStage a (Search.applyFilters a
          (Search.queryStage a df))).drop a.offset).take a.limit).length
        = min a.limit ((Search.sortStage a (Search.applyFilters a
          (Search.queryStage a df))).length - a.offset) := by
      rw [List.length_take, List.length_drop]
    show ((((Search.sortStage a (Search.applyFilters a
          (Search.queryStage a df))).drop a.offset).take a.limit).filter
            Search.rowOk).length
        ≤ min a.limit ((Search.sortStage a (Search.applyFilters a
          (Search.queryStage a df))).length - a.offset)
    omega
  · intro r hr
    obtain ⟨hin, hok⟩ := List.mem_filter.mp hr
    have h1 : r ∈ (Search.sortStage a (Search.applyFilters a
        (Search.queryStage a df))).drop a.offset :=
      List.take_subset _ _ hin
    have h2 : r ∈ Search.sortStage a (Search.applyFilters a
        (Search.queryStage a df)) :=
      List.drop_subset _ _ h1
    exact ⟨(Search.sortStage_perm a _).subset h2, hok⟩

/-- Counterexample for C8 as stated: a single row with
`title_year = 1700` passes every (absent) filter, so `total_count = 1`
and the clamped slice `[0, 10)` holds one row — but `MovieModel`
validation rejects `year < 1880`, the loop drops the row, and the
returned page is empty instead of being the slice. -/
theorem c8_pagination_counterexample :
    ¬ ((Search.search_movies_in_df
        [⟨some ("Old Short").data, none, none, none, some 1700, some 5,
          none, none, none, none, none⟩]
        ⟨[], 10, 0, none, none, none, none, none, none,
          "rating".data, "desc".data⟩).1.length
      = min 10 ((Search.search_movies_in_df
          [⟨some ("Old Short").data, none, none, none, some 1700, some 5,
            none, none, none, none, none⟩]
          ⟨[], 10, 0, none, none, none, none, none, none,
            "rating".data, "desc".data⟩).2 - 0)) := by
  decide

/-- Witness for C8: a frame with a valid 7-rated row and a 1700-dated row
that fails validation, sorted by rating descending with offset 0 — the
total is 2, the page holds at most two rows, and every page row is a
validated member of the filtered set. -/
theorem c8_pagination_witness :
    (Search.search_movies_in_df
        [⟨some ("A").data, none, none, none, none, some 7, none, none,
          none, none, none⟩,
         ⟨some ("B").data, none, none, none, some 1700, some 5, none, none,
          none, none, none⟩]
        ⟨[], 10, 0, none, none, none, none, none, none,
          "rating".data, "desc".data⟩).2
      = (Search.applyFilters
          ⟨[], 10, 0, none, none, none, none, none, none,
            "rating".data, "desc".data⟩
          (Search.queryStage
            ⟨[], 10, 0, none, none, none, none, none, none,
              "rating".data, "desc".data⟩
            [⟨some ("A").data, none, none, none, none, some 7, none, none,
              none, none, none⟩,
             ⟨some ("B").data, none, none, none, some 1700, some 5, none,
               none, none, none, none⟩])).length ∧
    (Search.search_movies_in_df
        [⟨some ("A").data, none, none, none, none, some 7, none, none,
          none, none, none⟩,
         ⟨some ("B").data, none, none, none, some 1700, some 5, none, none,
          none, none, none⟩]
        ⟨[], 10, 0, none, none, none, none, none, none,
          "rating".data, "desc".data⟩).1.length
      ≤ min 10 ((Search.search_movies_in_df
          [⟨some ("A").data, none, none, none, none, some 7, none, none,
            none, none, none⟩,
           ⟨some ("B").data, none, none, none, some 1700, some 5, none,
             none, none, none, none⟩]
          ⟨[], 10, 0, none, none, none, none, none, none,
            "rating".data, "desc".data⟩).2 - 0) ∧
    ∀ r ∈ (Search.search_movies_in_df
        [⟨some ("A").data, none, none, none, none, some 7, none, none,
          none, none, none⟩,
         ⟨some ("B").data, none, none, none, some 1700, some 5, none, none,
          none, none, none⟩]
        ⟨[], 10, 0, none, none, none, none, none, none,
          "rating".data, "desc".data⟩).1,
      r ∈ Search.applyFilters
          ⟨[], 10, 0, none, none, none, none, none, none,
            "rating".data, "desc".data⟩
          (Search.queryStage
            ⟨[], 10, 0, none, none, none, none, none, none,
              "rating".data, "desc".data⟩
            [⟨some ("A").data, none, none, none, none, some 7, none, none,
              none, none, none⟩,
             ⟨some ("B").data, none, none, none, some 1700, some 5, none,
               none, none, none, none⟩]) ∧
        Search.rowOk r = true :=
  c8_pagination
    [⟨some ("A").data, none, none, none, none, some 7, none, none,
      none, none, none⟩,
     ⟨some ("B").data, none, none, none, some 1700, some 5, none, none,
      none, none, none⟩]
    ⟨[], 10, 0, none, none, none, none, none, none,
      "rating".data, "desc".data⟩
